import Mathlib

/-!
Verification development for the curacao wireless bridging fabric.

This file gives a shallow embedding in Lean 4 of the core data structures
and operations of the repository:

* `FragBuf.handle_frag` — the fragment reassembler of `bridge-icd/src/lib.rs`;
* the pipe table of `poststation-bridge/src/table.rs`;
* the bridge dispatch logic of `poststation-bridge/src/bridge.rs`;
* the host→node proxy handler of `poststation-bridge/src/handlers.rs`;
* the node attach decision of `poststation-node/src/main.rs`;
* the run-length/literal codec of `blattuhr/icd/src/lib.rs` and the
  encoder loop of `blattuhr/host/src/main.rs`.

Machine integers are modelled as `Nat`/`Int`, with explicit `% 2 ^ w`
wrapping where the source relies on integer casts.  Fixed-size byte
arrays are modelled as functions `Nat → Nat`; byte slices as `List Nat`.
Rust code that can panic is modelled with an explicit `panic`-style
constructor in the result type.
-/

/-! ## Fragment reassembler (`bridge-icd/src/lib.rs`, `FragBuf`) -/

/-- `FragStatus` from `bridge-icd/src/lib.rs`: either `Idle`, or
`Active { position, rx_frags, ttl_frags }`. -/
inductive FragStatus where
  | idle : FragStatus
  | active (position rxFrags ttlFrags : Nat) : FragStatus
deriving DecidableEq

/-- `FragBuf`: a fixed 1024-byte buffer (modelled as a function from index
to byte) together with the reassembly status. -/
structure FragBuf where
  data : Nat → Nat
  status : FragStatus

/-- Result of one `handle_frag` call.  `panic` models the Rust panics of
`copy_from_slice` / slice indexing when the fragment is larger than the
1024-byte buffer; `ok r` models a normal return of `r`
(`None` = no completed frame, `Some bytes` = a completed frame). -/
inductive FragOut where
  | panic : FragOut
  | ok (res : Option (List Nat)) : FragOut
deriving DecidableEq

/-- Overwrite `d.length` bytes of the buffer `f` starting at `pos`
(models `self.data[pos..pos+d.len()].copy_from_slice(d)`). -/
def writeSlice (f : Nat → Nat) (pos : Nat) (d : List Nat) : Nat → Nat :=
  fun j => if pos ≤ j ∧ j < pos + d.length then d.getD (j - pos) 0 else f j

/-- Read the first `m` bytes of a buffer as a list
(models taking the slice `&self.data[..m]`). -/
def readBuf (f : Nat → Nat) (m : Nat) : List Nat :=
  (List.range m).map f

/-- `FragBuf::new()`: zeroed buffer, `Idle` status. -/
def FragBuf.new : FragBuf := ⟨fun _ => 0, .idle⟩

/-- Shallow embedding of `FragBuf::handle_frag` from
`bridge-icd/src/lib.rs` lines 154–197.  `part` and `ttlParts` are the
`u8` arguments (the theorems below only use values below 255, where
`Nat` arithmetic agrees with `u8` arithmetic); `data` is the fragment
payload.  Returns the call's result together with the updated buffer.
The `Idle`/restart branches copy `data` into `self.data[..data.len()]`,
which in Rust panics when `data.len() > 1024`; this is modelled by the
`FragOut.panic` result (with the buffer left unchanged). -/
def FragBuf.handle_frag (fb : FragBuf) (part ttlParts : Nat) (data : List Nat) :
    FragOut × FragBuf :=
  if ttlParts < 1 then
    (.ok none, { fb with status := .idle })
  else
    match fb.status with
    | .idle =>
      if part = 0 then
        if data.length ≤ 1024 then
          (.ok none, ⟨writeSlice fb.data 0 data, .active data.length 1 ttlParts⟩)
        else
          (.panic, fb)
      else
        (.ok none, fb)
    | .active position rxFrags ttlFrags =>
      if rxFrags ≠ part ∨ ttlFrags ≠ ttlParts then
        if part = 0 then
          if data.length ≤ 1024 then
            (.ok none, ⟨writeSlice fb.data 0 data, .active data.length 1 ttlParts⟩)
          else
            (.panic, fb)
        else
          (.ok none, { fb with status := .idle })
      else
        let e := position + data.length
        if e ≤ 1024 then
          let d := writeSlice fb.data position data
          if part + 1 = ttlFrags then
            (.ok (some (readBuf d e)), ⟨d, .idle⟩)
          else
            (.ok none, ⟨d, .active e (part + 1) ttlParts⟩)
        else
          (.ok none, { fb with status := .idle })

/-- Feed a list of fragments to the reassembler with consecutive part
numbers starting at `i` and total count `n`, collecting the results of
the successive `handle_frag` calls. -/
def runFrags (fb : FragBuf) (i n : Nat) : List (List Nat) → List FragOut × FragBuf
  | [] => ([], fb)
  | p :: ps =>
    let r := fb.handle_frag i n p
    let rest := runFrags r.2 (i + 1) n ps
    (r.1 :: rest.1, rest.2)

/-! ## Pipe table (`poststation-bridge/src/table.rs`) -/

/-- An 8-byte node serial (`[u8; 8]`). -/
abbrev Serial := List Nat

/-- `Element` from `table.rs`: an occupied slot, holding the node's
serial and the `Instant` of its last message (modelled as `Nat`). -/
structure Element where
  serial : Serial
  lastMsg : Nat
deriving DecidableEq

/-- The pipe table `addr_allocs: [Option<Element>; 7]`, modelled as a
list of seven optional slots (slot `i` corresponds to pipe `i + 1`). -/
abbrev Table := List (Option Element)

/-- `PipeAlloc` from `table.rs`. -/
inductive PipeAlloc where
  | new (pipe : Nat) : PipeAlloc
  | existing (pipe : Nat) : PipeAlloc
deriving DecidableEq

/-- The pipe number carried by a `PipeAlloc`. -/
def PipeAlloc.pipe : PipeAlloc → Nat
  | .new p => p
  | .existing p => p

/-- The scan loop of `Table::allocate_pipe`: walk the slots from index
`idx`, returning `.inl i` as soon as slot `i` holds `s` (the Rust early
`return Existing`), otherwise `.inr firstEmpty` where `firstEmpty` is
the index of the first empty slot seen (if any). -/
def allocFind : List (Option Element) → Serial → Nat → Option Nat → Nat ⊕ Option Nat
  | [], _, _, fe => .inr fe
  | some e :: rest, s, idx, fe =>
    if e.serial = s then .inl idx else allocFind rest s (idx + 1) fe
  | none :: rest, s, idx, fe =>
    allocFind rest s (idx + 1) (if fe.isNone then some idx else fe)

/-- `Table::allocate_pipe` (`table.rs` lines 25–45): return
`Existing(i+1)` if some slot already holds `serial` (table unchanged),
else fill the first empty slot with `{ serial, last_msg: now }` and
return `New(i+1)`, else `None`. -/
def allocate_pipe (t : Table) (s : Serial) (now : Nat) : Option PipeAlloc × Table :=
  match allocFind t s 0 none with
  | .inl i => (some (.existing (i + 1)), t)
  | .inr (some i) => (some (.new (i + 1)), t.set i (some ⟨s, now⟩))
  | .inr none => (none, t)

/-- Scan loop of `Table::pipe_for_serial`. -/
def pfsFind : List (Option Element) → Serial → Nat → Option Nat
  | [], _, _ => none
  | some e :: rest, s, idx =>
    if e.serial = s then some (idx + 1) else pfsFind rest s (idx + 1)
  | none :: rest, s, idx => pfsFind rest s (idx + 1)

/-- `Table::pipe_for_serial`: first pipe (index + 1) whose slot holds `s`. -/
def pipe_for_serial (t : Table) (s : Serial) : Option Nat :=
  pfsFind t s 0

/-- `Table::serial_for_pipe`: `None` for pipe 0 or an out-of-range /
empty slot, else the serial at slot `pipe - 1`. -/
def serial_for_pipe (t : Table) (pipe : Nat) : Option Serial :=
  if pipe = 0 then none
  else
    match t[pipe - 1]? with
    | some (some e) => some e.serial
    | _ => none

/-- `Table::update_time` (`table.rs` lines 78–95): returns `true` and
refreshes `last_msg` to `now` iff slot `pipe - 1` exists, is occupied
and holds exactly `s`; `pipe = 0`, out-of-range, empty or mismatched
slots return `false` with the table unchanged. -/
def update_time (t : Table) (pipe : Nat) (s : Serial) (now : Nat) : Bool × Table :=
  if pipe = 0 then (false, t)
  else
    match t[pipe - 1]? with
    | some (some e) =>
      if e.serial = s then (true, t.set (pipe - 1) (some { e with lastMsg := now }))
      else (false, t)
    | _ => (false, t)

/-- `Table::cull_older_than`: clear every occupied slot whose
`checked_duration_since` is `None` (`lastMsg > now`) or at least `dur`. -/
def cull_older_than (t : Table) (now dur : Nat) : Table :=
  t.map fun s =>
    match s with
    | some e => if now < e.lastMsg ∨ now - e.lastMsg ≥ dur then none else some e
    | none => none

/-- `Table::extract_table`: serials of occupied slots, in pipe-index order. -/
def extract_table (t : Table) : List Serial :=
  (t.filterMap id).map (·.serial)

/-- The serial stored at slot `i` (or `none` for an empty or
out-of-range slot). -/
def serialAt (t : Table) (i : Nat) : Option Serial :=
  ((t.getD i none).map (·.serial))

/-- The `lastMsg` stored at slot `i` (0 for empty / out-of-range slots). -/
def lastAt (t : Table) (i : Nat) : Nat :=
  ((t.getD i none).map (·.lastMsg)).getD 0

/-- Table invariant: no serial occupies two distinct slots. -/
def TableInv (t : Table) : Prop :=
  ∀ i < t.length, ∀ j < t.length,
    i ≠ j → ¬(serialAt t i ≠ none ∧ serialAt t i = serialAt t j)

/-- All stored timestamps are at most `now` (the monotonic clock never
runs behind a previously sampled `Instant::now()`). -/
def TimeLE (t : Table) (now : Nat) : Prop :=
  ∀ i < t.length, lastAt t i ≤ now

/-- `last_seen` monotonicity between two table states: every slot still
occupied afterwards has a timestamp at least its old one. -/
def TimeMono (t t' : Table) : Prop :=
  ∀ i < t'.length, serialAt t' i ≠ none → lastAt t i ≤ lastAt t' i

instance (t : Table) : Decidable (TableInv t) := by
  unfold TableInv; exact Nat.decidableBallLT _ _

instance (t : Table) (now : Nat) : Decidable (TimeLE t now) := by
  unfold TimeLE; exact Nat.decidableBallLT _ _

instance (t t' : Table) : Decidable (TimeMono t t') := by
  unfold TimeMono; exact Nat.decidableBallLT _ _

/-! ## Control messages and the bridge dispatch
(`bridge-icd/src/lib.rs`, `poststation-bridge/src/bridge.rs`) -/

/-- `Node2Bridge` from `bridge-icd/src/lib.rs`.  For `Proxy` the
fragment payload travels as the unconsumed packet tail and is modelled
as a separate argument of the dispatcher. -/
inductive Node2Bridge where
  | nodeInit (serial : Serial) : Node2Bridge
  | keepalive (serial : Serial) : Node2Bridge
  | proxy (part ttlParts : Nat) : Node2Bridge
  | nop : Node2Bridge
deriving DecidableEq

/-- `Bridge2Node` from `bridge-icd/src/lib.rs`. -/
inductive Bridge2Node where
  | initAck (serial : Serial) (usePipe : Nat) : Bridge2Node
  | keepalive (serial : Serial) : Bridge2Node
  | proxy (part ttlParts : Nat) : Bridge2Node
  | reset : Bridge2Node
deriving DecidableEq

/-- The bridge state touched by `Bridge::handle`: the pipe table and the
seven per-pipe fragment buffers (`frag_bufs[i]` serves pipe `i + 1`;
modelled as a function, only indices 0–6 are ever used). -/
structure BridgeSt where
  table : Table
  fbufs : Nat → FragBuf

/-- The externally observable effects of one `Bridge::handle` call: the
reply sent back to the node on its pipe (if any) and the `ProxyMessage`
published on the Bridge→Host topic (if any). -/
structure BridgeOut where
  reply : Option Bridge2Node
  published : Option (Serial × List Nat)

/-- Result of one dispatch: `panicked` models a Rust panic inside
`handle_frag` (only possible for a fragment payload longer than the
1024-byte buffer, which a ≤252-byte radio packet can never produce). -/
inductive BridgeRes where
  | panicked : BridgeRes
  | ok (out : BridgeOut) (st : BridgeSt) : BridgeRes

/-- The reply a dispatch result sends to the node (observable
projection; `panicked` has no observable reply). -/
def BridgeRes.replyOf : BridgeRes → Option Bridge2Node
  | .panicked => none
  | .ok out _ => out.reply

/-- The `ProxyMessage` a dispatch result publishes on the
Bridge→Host topic (observable projection). -/
def BridgeRes.pubOf : BridgeRes → Option (Serial × List Nat)
  | .panicked => none
  | .ok out _ => out.published

/-- The status of fragment buffer `i` after a dispatch (observable
projection). -/
def BridgeRes.fbufStatusOf (i : Nat) : BridgeRes → Option FragStatus
  | .panicked => none
  | .ok _ st => some ((st.fbufs i).status)

/-- `Bridge::init_serial` (`bridge.rs` lines 139–158). -/
def init_serial (st : BridgeSt) (s : Serial) (now : Nat) : BridgeOut × BridgeSt :=
  match allocate_pipe st.table s now with
  | (some (.new p), t') => (⟨some (.initAck s p), none⟩, { st with table := t' })
  | (some (.existing p), t') => (⟨some (.initAck s p), none⟩, { st with table := t' })
  | (none, t') => (⟨some .reset, none⟩, { st with table := t' })

/-- `Bridge::proxy` (`bridge.rs` lines 161–205): look up the serial for
the pipe (replying `Reset` if none), drop malformed `ttl_parts == 0`
fragments, forward single-fragment frames (`part == 0 && ttl_parts == 1`)
directly, and otherwise feed the pipe's fragment buffer, publishing the
reassembled frame on completion. -/
def bridgeProxy (st : BridgeSt) (pipe : Nat) (payload : List Nat) (part ttlParts : Nat) :
    BridgeRes :=
  match serial_for_pipe st.table pipe with
  | none => .ok ⟨some .reset, none⟩ st
  | some ser =>
    if ttlParts = 0 then .ok ⟨none, none⟩ st
    else
      if part = 0 ∧ ttlParts = 1 then
        .ok ⟨none, some (ser, payload)⟩ st
      else
        match (st.fbufs (pipe - 1)).handle_frag part ttlParts payload with
        | (.panic, _) => .panicked
        | (.ok res, fb') =>
          .ok ⟨none, res.map fun d => (ser, d)⟩
            { st with fbufs := fun i => if i = pipe - 1 then fb' else st.fbufs i }

/-- `Bridge::handle` (`bridge.rs` lines 95–136): dispatch one received
radio packet by `(pipe, message)`.  `payload` is the unconsumed packet
tail (the fragment bytes of a `Proxy` message); `now` is the current
monotonic time used for table updates. -/
def bridgeHandle (st : BridgeSt) (pipe : Nat) (msg : Node2Bridge) (payload : List Nat)
    (now : Nat) : BridgeRes :=
  match pipe, msg with
  | 0, .nodeInit s =>
    let r := init_serial st s now
    .ok r.1 r.2
  | 0, _ => .ok ⟨some .reset, none⟩ st
  | _ + 1, .nodeInit _ => .ok ⟨some .reset, none⟩ st
  | n + 1, .keepalive s =>
    let r := update_time st.table (n + 1) s now
    if r.1 then .ok ⟨some (.keepalive s), none⟩ { st with table := r.2 }
    else .ok ⟨some .reset, none⟩ { st with table := r.2 }
  | n + 1, .proxy part ttlParts => bridgeProxy st (n + 1) payload part ttlParts
  | _ + 1, .nop => .ok ⟨none, none⟩ st

/-! ## Host→node proxy handler (`poststation-bridge/src/handlers.rs`) -/

/-- One radio frame queued by `proxy_handler`: destination pipe, the
B2N `Proxy { part, ttl_parts }` tag and the chunk bytes that follow it. -/
structure Frame where
  pipe : Nat
  part : Nat
  ttlParts : Nat
  data : List Nat
deriving DecidableEq

/-- `ProxyError` from the bridging ICD (only `UnknownDevice` is used). -/
inductive ProxyError where
  | unknownDevice : ProxyError
deriving DecidableEq

/-- Result of `proxy_handler`.  `panicked sent` models the
`panic!()` on a failed radio TX grant — `sent` are the frames already
committed to the radio before the panic (they are not rolled back). -/
inductive ProxyOutcome where
  | panicked (sent : List Frame) : ProxyOutcome
  | err (e : ProxyError) : ProxyOutcome
  | ok (sent : List Frame) : ProxyOutcome
deriving DecidableEq

/-- `msg.chunks(k)` with explicit fuel (structural recursion; the
wrapper `chunksOf` passes `l.length` which is always enough fuel
because each step consumes at least one element for `k ≥ 1`). -/
def chunksAux (k : Nat) : Nat → List Nat → List (List Nat)
  | 0, _ => []
  | _, [] => []
  | fuel + 1, l => l.take k :: chunksAux k fuel (l.drop k)

/-- Rust's `slice::chunks(k)`: split into consecutive chunks of `k`
elements, the last one possibly shorter, no empty chunks. -/
def chunksOf (k : Nat) (l : List Nat) : List (List Nat) :=
  chunksAux k l.length l

/-- The `for (i, ch) in arg.msg.chunks(128).enumerate()` loop of
`proxy_handler`.  `grants i` tells whether the radio TX grant for chunk
`i` succeeds (`wait_grant_packet`); on failure the handler panics with
the already-sent frames.  `EsbHeader::new(252, 0, pipe, false)` fails
only for `pipe > 7`, in which case the loop returns
`Err(UnknownDevice)`.  `part` and `ttl_parts` are `u8`, hence the
`% 256` (`i as u8`, `chunks as u8`). -/
def proxyLoop (pipe chunks : Nat) (grants : Nat → Bool) :
    Nat → List (List Nat) → List Frame → ProxyOutcome
  | _, [], sent => .ok sent.reverse
  | i, ch :: rest, sent =>
    if 7 < pipe then .err .unknownDevice
    else if grants i then
      proxyLoop pipe chunks grants (i + 1) rest
        (⟨pipe, i % 256, chunks % 256, ch⟩ :: sent)
    else .panicked sent.reverse

/-- `proxy_handler` (`handlers.rs` lines 35–77): look up the pipe for
the requested serial (`Err(UnknownDevice)` if absent), then send the
message as `⌈len/128⌉` fragments of at most 128 bytes each. -/
def proxy_handler (t : Table) (s : Serial) (msg : List Nat) (grants : Nat → Bool) :
    ProxyOutcome :=
  match pipe_for_serial t s with
  | none => .err .unknownDevice
  | some pipe => proxyLoop pipe ((msg.length + 127) / 128) grants 0 (chunksOf 128 msg) []

/-- The list of frames the loop of `proxy_handler` builds for a list of
chunks, starting at part number `start` (specification helper used to
state what `proxyLoop` sends). -/
def framesFor (pipe chunks start : Nat) : List (List Nat) → List Frame
  | [] => []
  | ch :: rest => ⟨pipe, start % 256, chunks % 256, ch⟩ :: framesFor pipe chunks (start + 1) rest

/-! ## Node attach decision (`poststation-node/src/main.rs`, `get_pipe`) -/

/-- The per-packet decision of the `get_pipe` attach loop: a packet that
parses as B2N `InitializeAck` whose serial equals the node's own makes
the loop return the contained `use_pipe` unchanged; every other parsed
message makes the loop continue (`none`).  There is no validation of
`use_pipe`. -/
def getPipeStep (ours : Serial) (msg : Bridge2Node) : Option Nat :=
  match msg with
  | .initAck serial usePipe => if serial = ours then some usePipe else none
  | .keepalive _ => none
  | .proxy _ _ => none
  | .reset => none

/-! ## Run-length / literal codec
(`blattuhr/icd/src/lib.rs` `decode_to`, `blattuhr/host/src/main.rs` encoder) -/

/-- `DecodeError` from `blattuhr/icd/src/lib.rs`. -/
inductive DecodeError where
  | decodeOrEof : DecodeError
  | overflow : DecodeError
deriving DecidableEq

/-- LEB128 varint encoding with fuel (structural recursion; postcard
emits at most 5 base-128 groups for a `u32`, so the wrapper passes
fuel 5, which is exact for every value below `2^35` — in particular for
every zigzag-encoded `i32`). -/
def varintEncodeAux : Nat → Nat → List Nat
  | 0, n => [n % 128]
  | fuel + 1, n => if n < 128 then [n] else (n % 128 + 128) :: varintEncodeAux fuel (n / 128)

/-- LEB128 varint encoding of a `u32`-sized natural number (little-endian
base-128 groups, high bit = continuation), as used by postcard for its
integer wire format. -/
def varintEncode (n : Nat) : List Nat :=
  varintEncodeAux 5 n

/-- LEB128 varint decoding with fuel; postcard reads at most 5 bytes
for a `u32` varint and rejects longer ones, hence callers pass fuel 5. -/
def varintDecode : Nat → List Nat → Option (Nat × List Nat)
  | 0, _ => none
  | _, [] => none
  | fuel + 1, b :: bs =>
    if b < 128 then some (b, bs)
    else (varintDecode fuel bs).map fun r => ((b - 128) + 128 * r.1, r.2)

/-- Zigzag encoding of a signed integer, `(n << 1) ^ (n >> 31)`:
`2n` for `n ≥ 0`, `2|n| - 1` for `n < 0`. -/
def zigzagEncode (z : Int) : Nat :=
  if 0 ≤ z then 2 * z.toNat else 2 * (-z).toNat - 1

/-- Zigzag decoding: even values are non-negative, odd are negative. -/
def zigzagDecode (m : Nat) : Int :=
  if m % 2 = 0 then (m / 2 : Nat) else -((m / 2 : Nat) + 1)

/-- `postcard::to_stdvec(&z)` for an `i32`: zigzag then varint. -/
def encodeI32 (z : Int) : List Nat :=
  varintEncode (zigzagEncode z)

/-- `postcard::take_from_bytes::<i32>`: read a varint of at most 5
bytes, reject values that do not fit in a `u32`, and un-zigzag.
Returns the decoded value and the unconsumed bytes. -/
def takeI32 (data : List Nat) : Option (Int × List Nat) :=
  match varintDecode 5 data with
  | none => none
  | some (v, rest) => if v < 2 ^ 32 then some (zigzagDecode v, rest) else none

/-- `u32 as i32` / `usize as i32`: wrap into `[-2^31, 2^31)`. -/
def toI32 (n : Nat) : Int :=
  ((n : Int) + 2 ^ 31) % 2 ^ 32 - 2 ^ 31

/-- The `decode_to` loop body with explicit fuel (each iteration of the
Rust `while` loop consumes at least one input byte, so fuel
`data.length` always suffices; see `decodeToAux_fuel_irrelevant`).
`buf` is the current output buffer; the returned list is the final
contents of the whole buffer (written prefix ++ untouched tail). -/
def decodeToAux : Nat → List Nat → List Nat → Except DecodeError (List Nat)
  | _, [], buf => .ok buf
  | 0, _ :: _, buf => .ok buf
  | fuel + 1, a :: data, buf =>
    match takeI32 (a :: data) with
    | none => .error .decodeOrEof
    | some (val, remain) =>
      let len := val.natAbs
      if len > buf.length then .error .overflow
      else if val < 0 then
        if len > remain.length then .error .decodeOrEof
        else
          match decodeToAux fuel (remain.drop len) (buf.drop len) with
          | .ok rest => .ok (remain.take len ++ rest)
          | .error e => .error e
      else
        match remain with
        | [] => .error .decodeOrEof
        | v :: remain2 =>
          match decodeToAux fuel remain2 (buf.drop len) with
          | .ok rest => .ok (List.replicate len v ++ rest)
          | .error e => .error e

/-- `decode_to` from `blattuhr/icd/src/lib.rs` lines 29–56: repeatedly
read a postcard `i32` length; a negative value `-N` copies the next `N`
input bytes literally, a non-negative value `N` reads one byte and
repeats it `N` times; `Overflow` if a block exceeds the space left in
the output buffer, `DecodeOrEof` on any truncated input.  Returns the
final buffer contents on success. -/
def decode_to (data buf : List Nat) : Except DecodeError (List Nat) :=
  decodeToAux data.length data buf

/-- The encoder state of `blattuhr/host/src/main.rs` (`enum State`):
a pending literal block or a pending run.  Literal bytes are kept in
reverse order (most recent first) so that the Rust `Vec` push/pop at
the end of the vector becomes list cons/tail. -/
inductive RleState where
  | raw (rvals : List Nat) : RleState
  | run (val : Nat) (len : Nat) : RleState
deriving DecidableEq

/-- One step of the encoder loop of `blattuhr/host/src/main.rs` lines
172–213, on the reversed state list (head = most recently pushed
state).  The `raw []` case is unreachable (the source `panic!()`s
there; literal blocks are never empty). -/
def rleStep (rstates : List RleState) (c : Nat) : List RleState :=
  match rstates with
  | [] => [.raw [c]]
  | .raw [] :: rest => .raw [c] :: rest
  | .raw (t :: rv) :: rest =>
    if t = c then
      if rv = [] then .run c 2 :: rest
      else .run c 2 :: .raw rv :: rest
    else .raw (c :: t :: rv) :: rest
  | .run v len :: rest =>
    if v = c then .run v (len + 1) :: rest
    else if len = 1 then .raw [c, v] :: rest
    else .raw [c] :: .run v len :: rest

/-- Run the encoder loop over a byte stream, returning the states in
chronological order. -/
def rleEncode (bytes : List Nat) : List RleState :=
  (bytes.foldl rleStep []).reverse

/-- Serialize one encoder state (the `for s in ch` loop of
`blattuhr/host/src/main.rs` lines 221–236): a run of `len` copies of
`val` becomes `postcard(len as i32) ++ [val]`; a literal block becomes
`postcard(-(vals.len() as i32)) ++ vals`. -/
def serializeState (s : RleState) : List Nat :=
  match s with
  | .run v len => encodeI32 (toI32 len) ++ [v]
  | .raw rvals => encodeI32 (-(toI32 rvals.length)) ++ rvals.reverse

/-- The full encoded form of a byte stream: the host encoder's states,
serialized in order.  (The host sends the serialization split across
`DisplayCommand`s of 64 states each; their concatenation is exactly
this list.) -/
def encodeStream (bytes : List Nat) : List Nat :=
  ((rleEncode bytes).map serializeState).flatten

/-- The byte stream a single encoder state stands for. -/
def expandState (s : RleState) : List Nat :=
  match s with
  | .run v len => List.replicate len v
  | .raw rvals => rvals.reverse

/-- The byte stream a reversed state list stands for. -/
def expandAll (rstates : List RleState) : List Nat :=
  (rstates.reverse.map expandState).flatten

/-- Structural well-formedness of an encoder state: literal blocks are
nonempty and runs have length at least 1 (the encoder only ever builds
runs of length ≥ 2). -/
def GoodState : RleState → Prop
  | .raw rvals => rvals ≠ []
  | .run _ len => 1 ≤ len

/-! ## General helper lemmas -/

theorem readBuf_zero (f : Nat → Nat) : readBuf f 0 = [] := rfl

theorem range_map_getD (l : List Nat) :
    (List.range l.length).map (fun i => l.getD i 0) = l := by
  induction l with
  | nil => rfl
  | cons a l ih =>
    rw [List.length_cons, List.range_succ_eq_map, List.map_cons, List.map_map]
    refine congrArg₂ List.cons (List.getD_cons_zero ..) ?_
    have hstep : ∀ j ∈ List.range l.length,
        ((fun i => (a :: l).getD i 0) ∘ Nat.succ) j = l.getD j 0 := by
      intro j _
      simp [List.getD_cons_succ]
    rw [List.map_congr_left hstep]
    exact ih

theorem readBuf_writeSlice (f : Nat → Nat) (pos : Nat) (d : List Nat) :
    readBuf (writeSlice f pos d) (pos + d.length) = readBuf f pos ++ d := by
  unfold readBuf
  rw [List.range_add, List.map_append, List.map_map]
  congr 1
  · apply List.map_congr_left
    intro j hj
    rw [List.mem_range] at hj
    simp only [writeSlice]
    rw [if_neg]
    omega
  · have : ∀ x ∈ List.range d.length,
        (writeSlice f pos d ∘ (pos + ·)) x = d.getD x 0 := by
      intro x hx
      rw [List.mem_range] at hx
      simp only [Function.comp, writeSlice]
      rw [if_pos (by omega)]
      congr 1
      omega
    rw [List.map_congr_left this, range_map_getD]


/-! ## C1 / C2: the fragment reassembler -/

theorem handle_frag_idle_first (fb : FragBuf) (n : Nat) (data : List Nat)
    (h : fb.status = .idle) (hn : 1 ≤ n) (hlen : data.length ≤ 1024) :
    fb.handle_frag 0 n data =
      (.ok none, ⟨writeSlice fb.data 0 data, .active data.length 1 n⟩) := by
  unfold FragBuf.handle_frag
  rw [if_neg (by omega), h]
  simp [hlen]

theorem handle_frag_match_mid (fb : FragBuf) (pos k n : Nat) (data : List Nat)
    (h : fb.status = .active pos k n) (hn : 1 ≤ n)
    (hfit : pos + data.length ≤ 1024) (hlast : ¬(k + 1 = n)) :
    fb.handle_frag k n data =
      (.ok none, ⟨writeSlice fb.data pos data, .active (pos + data.length) (k + 1) n⟩) := by
  unfold FragBuf.handle_frag
  rw [if_neg (by omega), h]
  simp only [ne_eq, not_true_eq_false, false_or, or_self, if_false, if_pos hfit, if_neg hlast]

theorem handle_frag_match_last (fb : FragBuf) (pos k n : Nat) (data : List Nat)
    (h : fb.status = .active pos k n) (hn : 1 ≤ n)
    (hfit : pos + data.length ≤ 1024) (hlast : k + 1 = n) :
    fb.handle_frag k n data =
      (.ok (some (readBuf (writeSlice fb.data pos data) (pos + data.length))),
        ⟨writeSlice fb.data pos data, .idle⟩) := by
  unfold FragBuf.handle_frag
  rw [if_neg (by omega), h]
  simp only [ne_eq, not_true_eq_false, false_or, or_self, if_false, if_pos hfit, if_pos hlast]

/-- Feeding the remaining fragments of an in-flight frame: with `k ≥ 1`
fragments already received, position equal to the number of buffered
bytes and matching totals, the remaining pieces all return `Pending`
except the last, which completes with the whole frame. -/
theorem runFrags_active (ps : List (List Nat)) :
    ∀ (fb : FragBuf) (done : List Nat) (k n : Nat),
      fb.status = .active done.length k n →
      readBuf fb.data done.length = done →
      ps ≠ [] →
      k + ps.length = n →
      1 ≤ k →
      (done ++ ps.flatten).length ≤ 1024 →
      (runFrags fb k n ps).1 =
        List.replicate (ps.length - 1) (.ok none) ++ [.ok (some (done ++ ps.flatten))] := by
  induction ps with
  | nil => intro _ _ _ _ _ _ h; exact absurd rfl h
  | cons p ps ih =>
    intro fb done k n hst hread _ htot hk hlen
    have htot' : k + (ps.length + 1) = n := by simpa using htot
    have hlen' : done.length + (p.length + ps.flatten.length) ≤ 1024 := by
      simpa using hlen
    have hn : 1 ≤ n := by omega
    have hfit : done.length + p.length ≤ 1024 := by omega
    simp only [runFrags]
    rcases List.eq_nil_or_concat ps with hps | _
    · subst hps
      have hlast : k + 1 = n := by simpa using htot'
      rw [handle_frag_match_last fb done.length k n p hst hn hfit hlast]
      simp only [runFrags, readBuf_writeSlice, hread, List.flatten_cons,
        List.flatten_nil, List.append_nil, List.length_cons, List.length_nil]
      rfl
    · have hne : ps ≠ [] := by rintro rfl; simp_all
      have hps1 : 1 ≤ ps.length := List.length_pos.mpr hne
      have hlast : ¬(k + 1 = n) := by omega
      rw [handle_frag_match_mid fb done.length k n p hst hn hfit hlast]
      have harg : done.length + p.length = (done ++ p).length := by simp
      have := ih ⟨writeSlice fb.data done.length p, .active (done ++ p).length (k + 1) n⟩
        (done ++ p) (k + 1) n rfl
        (by simp only [List.length_append]; rw [readBuf_writeSlice, hread])
        hne (by omega) (by omega)
        (by simp only [List.length_append, List.flatten_cons] at hlen ⊢; omega)
      simp only [harg, this, List.length_cons, List.flatten_cons]
      rw [show ps.length + 1 - 1 = (ps.length - 1) + 1 by omega, List.replicate_succ]
      simp [List.append_assoc]

/-- C1 (amended): feeding a partition of `B` (length ≤ 1024) into
`n ≥ 2` nonempty pieces as fragments `(i, n)` for `i = 0 .. n-1` into a
fresh reassembler yields `Pending` on every call but the last and
`Complete(B)` on the last. -/
theorem frag_reassembly_roundtrip (B : List Nat) (pieces : List (List Nat))
    (hjoin : pieces.flatten = B) (hnonempty : ∀ p ∈ pieces, p ≠ [])
    (hlen : B.length ≤ 1024) (hn : 2 ≤ pieces.length) :
    (runFrags FragBuf.new 0 pieces.length pieces).1 =
      List.replicate (pieces.length - 1) (.ok none) ++ [.ok (some B)] := by
  cases pieces with
  | nil => simp at hn
  | cons p ps =>
    have hne : ps ≠ [] := by
      rintro rfl
      simp at hn
    have hlenp : p.length ≤ 1024 := by
      subst hjoin
      simp only [List.flatten_cons, List.length_append] at hlen
      omega
    simp only [runFrags]
    rw [handle_frag_idle_first FragBuf.new (p :: ps).length p rfl (by simp) hlenp]
    have := runFrags_active ps
      ⟨writeSlice FragBuf.new.data 0 p, .active p.length 1 (p :: ps).length⟩
      p 1 (p :: ps).length
      rfl
      (by
        have h0 : readBuf FragBuf.new.data 0 = [] := rfl
        have := readBuf_writeSlice FragBuf.new.data 0 p
        rw [h0] at this
        simpa using this)
      hne (by simp [Nat.add_comm]) (by omega)
      (by
        subst hjoin
        simpa using hlen)
    simp only [List.length_cons] at this ⊢
    have hflat : p ++ ps.flatten = B := by
      subst hjoin; simp
    rw [this, hflat]
    rw [show ps.length + 1 - 1 = (ps.length - 1) + 1 by
      have := List.length_pos.mpr hne; omega]
    rw [List.replicate_succ]
    simp

/-- C1 witness for `frag_reassembly_roundtrip`: the two-piece partition
`[1] ++ [2, 3]` of `[1, 2, 3]`. -/
theorem frag_reassembly_roundtrip_witness :
    (runFrags FragBuf.new 0 2 [[1], [2, 3]]).1 =
      List.replicate 1 (.ok none) ++ [.ok (some [1, 2, 3])] :=
  frag_reassembly_roundtrip [1, 2, 3] [[1], [2, 3]] (by decide)
    (by decide) (by decide) (by decide)

/-- C1 counterexample: for the single-piece case `n = 1` the claim
fails — the very first fragment of a one-fragment frame always returns
`Pending` (the `Idle, part == 0` branch never completes a frame), so
feeding `B = [5]` as one piece does not return `Complete([5])` on the
last (only) call. -/
theorem frag_single_piece_pending :
    (runFrags FragBuf.new 0 1 [[5]]).1 = [.ok none] ∧
    (runFrags FragBuf.new 0 1 [[5]]).1 ≠ [.ok (some [5])] := by
  constructor
  · rfl
  · decide

/-- C2 (amended): after a first fragment has been accepted (state
`Active`), (1) a non-matching `(part, total)` with `part ≠ 0` — or a
malformed `total < 1` — returns no completed frame and leaves the
buffer `Idle` with its contents untouched; (2) a non-matching pair with
`part = 0` (fragment ≤ 1024 bytes) does not go `Idle` but restarts a
fresh frame; (3) a matching continuation fragment of at most 1024 bytes
whose acceptance would push the buffered length beyond 1024 returns
normally with the frame dropped (state `Idle`), with no panic and no
write to the buffer. -/
theorem frag_reject_amended :
    (∀ (fb : FragBuf) (pos k t part ttl : Nat) (data : List Nat),
      fb.status = .active pos k t → part ≠ 0 → (ttl < 1 ∨ k ≠ part ∨ t ≠ ttl) →
      (fb.handle_frag part ttl data).1 = .ok none ∧
      (fb.handle_frag part ttl data).2.status = .idle ∧
      (fb.handle_frag part ttl data).2.data = fb.data) ∧
    (∀ (fb : FragBuf) (pos k t ttl : Nat) (data : List Nat),
      fb.status = .active pos k t → 1 ≤ ttl → (k ≠ 0 ∨ t ≠ ttl) →
      data.length ≤ 1024 →
      (fb.handle_frag 0 ttl data).1 = .ok none ∧
      (fb.handle_frag 0 ttl data).2.status = .active data.length 1 ttl) ∧
    (∀ (fb : FragBuf) (pos k t : Nat) (data : List Nat),
      fb.status = .active pos k t → 1 ≤ t → data.length ≤ 1024 →
      1024 < pos + data.length →
      (fb.handle_frag k t data).1 = .ok none ∧
      (fb.handle_frag k t data).2.status = .idle ∧
      (fb.handle_frag k t data).2.data = fb.data) := by
  refine ⟨?_, ?_, ?_⟩
  · intro fb pos k t part ttl data h hpart hmis
    obtain ⟨d0, st⟩ := fb
    simp only at h
    subst h
    by_cases httl : ttl < 1
    · unfold FragBuf.handle_frag
      rw [if_pos httl]
      exact ⟨rfl, rfl, rfl⟩
    · have hor : k ≠ part ∨ t ≠ ttl := by
        rcases hmis with h1 | h2 | h3
        · omega
        · exact Or.inl h2
        · exact Or.inr h3
      unfold FragBuf.handle_frag
      rw [if_neg httl]
      dsimp only
      rw [if_pos hor, if_neg hpart]
      exact ⟨rfl, rfl, rfl⟩
  · intro fb pos k t ttl data h httl hmis hdl
    obtain ⟨d0, st⟩ := fb
    simp only at h
    subst h
    unfold FragBuf.handle_frag
    rw [if_neg (by omega)]
    dsimp only
    rw [if_pos hmis, if_pos rfl, if_pos hdl]
    exact ⟨rfl, rfl⟩
  · intro fb pos k t data h ht hdl hover
    obtain ⟨d0, st⟩ := fb
    simp only at h
    subst h
    unfold FragBuf.handle_frag
    rw [if_neg (by omega)]
    dsimp only
    simp only [ne_eq, not_true_eq_false, false_or, or_self, if_false]
    rw [if_neg (by omega)]
    exact ⟨rfl, rfl, rfl⟩

/-- C2 witness for `frag_reject_amended`: concrete instances of the
three conjuncts on a buffer in state `Active(1, 1, 3)`. -/
theorem frag_reject_amended_witness :
    ((⟨fun _ => 0, .active 1 1 3⟩ : FragBuf).handle_frag 2 3 [9]).1 = .ok none ∧
    ((⟨fun _ => 0, .active 1 1 3⟩ : FragBuf).handle_frag 2 3 [9]).2.status = .idle ∧
    ((⟨fun _ => 0, .active 1 1 3⟩ : FragBuf).handle_frag 0 2 [9]).2.status = .active 1 1 2 ∧
    ((⟨fun _ => 0, .active 1020 1 3⟩ : FragBuf).handle_frag 1 3 [1, 2, 3, 4, 5]).1 = .ok none ∧
    ((⟨fun _ => 0, .active 1020 1 3⟩ : FragBuf).handle_frag 1 3 [1, 2, 3, 4, 5]).2.status = .idle := by
  obtain ⟨h1, h2, h3⟩ := frag_reject_amended
  obtain ⟨a1, a2, _⟩ := h1 ⟨fun _ => 0, .active 1 1 3⟩ 1 1 3 2 3 [9] rfl
    (by decide) (by decide)
  obtain ⟨_, b2⟩ := h2 ⟨fun _ => 0, .active 1 1 3⟩ 1 1 3 2 [9] rfl
    (by decide) (by decide) (by decide)
  obtain ⟨c1, c2, _⟩ := h3 ⟨fun _ => 0, .active 1020 1 3⟩ 1020 1 3 [1, 2, 3, 4, 5] rfl
    (by decide) (by decide) (by decide)
  exact ⟨a1, a2, b2, c1, c2⟩

set_option maxRecDepth 8000 in
/-- C2 counterexample: (i) after accepting the first fragment of a
3-fragment frame, the mismatched pair `(part = 0, total = 2)` does not
leave the buffer `Idle` — it restarts a fresh frame (state
`Active(1, 1, 2)`); (ii) a `part = 0` fragment of 1025 bytes, which
would make the buffered length exceed 1024, panics (out-of-bounds
`copy_from_slice`) instead of returning normally with the frame
dropped. -/
theorem frag_reject_counterexample :
    (((FragBuf.new.handle_frag 0 3 [7]).2.handle_frag 0 2 [9]).2.status = .active 1 1 2 ∧
      ((FragBuf.new.handle_frag 0 3 [7]).2.handle_frag 0 2 [9]).2.status ≠ .idle) ∧
    ((FragBuf.new.handle_frag 0 3 [7]).2.handle_frag 0 2 (List.replicate 1025 0)).1 = .panic := by
  refine ⟨⟨rfl, by decide⟩, by decide⟩

/-! ## C10: the node attach loop adopts `use_pipe` unvalidated -/

/-- C10: whenever a packet parses as B2N `InitializeAck` with the
node's own serial, the attach loop returns the contained `use_pipe`
exactly as received — for every value, including `0` and values above
`7`; an `InitializeAck` for a different serial is ignored. -/
theorem get_pipe_adopts_unvalidated (ours : Serial) (p : Nat) :
    getPipeStep ours (.initAck ours p) = some p ∧
    (∀ s : Serial, s ≠ ours → getPipeStep ours (.initAck s p) = none) := by
  constructor
  · simp [getPipeStep]
  · intro s hs
    simp [getPipeStep, hs]

/-- C10 witness for `get_pipe_adopts_unvalidated`: the out-of-range
pipes `0` and `9` are both adopted verbatim. -/
theorem get_pipe_adopts_unvalidated_witness :
    getPipeStep [1, 2, 3, 4, 5, 6, 7, 8] (.initAck [1, 2, 3, 4, 5, 6, 7, 8] 0) = some 0 ∧
    getPipeStep [1, 2, 3, 4, 5, 6, 7, 8] (.initAck [1, 2, 3, 4, 5, 6, 7, 8] 9) = some 9 ∧
    getPipeStep [1, 2, 3, 4, 5, 6, 7, 8] (.initAck [9, 2, 3, 4, 5, 6, 7, 8] 1) = none :=
  ⟨(get_pipe_adopts_unvalidated [1, 2, 3, 4, 5, 6, 7, 8] 0).1,
   (get_pipe_adopts_unvalidated [1, 2, 3, 4, 5, 6, 7, 8] 9).1,
   (get_pipe_adopts_unvalidated [1, 2, 3, 4, 5, 6, 7, 8] 1).2
     [9, 2, 3, 4, 5, 6, 7, 8] (by decide)⟩

/-! ## C9: a zero-length proxy request sends nothing and succeeds -/

/-- C9: `proxy_handler` on a `ProxyMessage` whose serial has an
allocated pipe and whose `msg` is empty transmits no radio frame and
returns `Ok(())` — `msg.chunks(128)` of an empty slice is empty, so
the send loop never runs, for any behaviour of the radio. -/
theorem proxy_handler_empty_msg (t : Table) (s : Serial) (p : Nat)
    (grants : Nat → Bool) (hp : pipe_for_serial t s = some p) :
    proxy_handler t s [] grants = .ok [] := by
  unfold proxy_handler
  rw [hp]
  rfl

/-- C9 witness for `proxy_handler_empty_msg`: a concrete table with the
serial on pipe 1 and a radio that would refuse every grant. -/
theorem proxy_handler_empty_msg_witness :
    proxy_handler [some ⟨[1, 2, 3, 4, 5, 6, 7, 8], 0⟩, none, none, none, none, none, none]
      [1, 2, 3, 4, 5, 6, 7, 8] [] (fun _ => false) = .ok [] :=
  proxy_handler_empty_msg _ [1, 2, 3, 4, 5, 6, 7, 8] 1 (fun _ => false) (by decide)

/-! ## Table helper lemmas -/

theorem serialAt_cons_zero (o : Option Element) (rest : Table) :
    serialAt (o :: rest) 0 = o.map (·.serial) := rfl

theorem serialAt_cons_succ (o : Option Element) (rest : Table) (i : Nat) :
    serialAt (o :: rest) (i + 1) = serialAt rest i := rfl

theorem lastAt_cons_succ (o : Option Element) (rest : Table) (i : Nat) :
    lastAt (o :: rest) (i + 1) = lastAt rest i := rfl

theorem getD_set_self (t : Table) (i : Nat) (v : Option Element) (h : i < t.length) :
    (t.set i v).getD i none = v := by
  rw [List.getD_eq_getElem?_getD, List.getElem?_set_self', List.getElem?_eq_getElem h]
  rfl

theorem getD_set_ne (t : Table) (i j : Nat) (v : Option Element) (h : i ≠ j) :
    (t.set i v).getD j none = t.getD j none := by
  rw [List.getD_eq_getElem?_getD, List.getElem?_set_ne h, ← List.getD_eq_getElem?_getD]

theorem allocFind_inl_spec (l : Table) :
    ∀ (s : Serial) (idx : Nat) (fe : Option Nat) (i : Nat),
      allocFind l s idx fe = .inl i →
      idx ≤ i ∧ i - idx < l.length ∧ serialAt l (i - idx) = some s := by
  induction l with
  | nil => intro s idx fe i h; simp [allocFind] at h
  | cons o rest ih =>
    intro s idx fe i h
    match o with
    | some e =>
      by_cases he : e.serial = s
      · rw [allocFind, if_pos he] at h
        obtain rfl : idx = i := by injection h
        refine ⟨le_refl _, by simp, ?_⟩
        rw [Nat.sub_self, serialAt_cons_zero]
        simp [he]
      · rw [allocFind, if_neg he] at h
        obtain ⟨h1, h2, h3⟩ := ih s (idx + 1) fe i h
        refine ⟨by omega, by simp; omega, ?_⟩
        rw [show i - idx = (i - (idx + 1)) + 1 by omega, serialAt_cons_succ]
        exact h3
    | none =>
      rw [allocFind] at h
      obtain ⟨h1, h2, h3⟩ := ih s (idx + 1) _ i h
      refine ⟨by omega, by simp; omega, ?_⟩
      rw [show i - idx = (i - (idx + 1)) + 1 by omega, serialAt_cons_succ]
      exact h3

theorem allocFind_inr_spec (l : Table) :
    ∀ (s : Serial) (idx : Nat) (fe fe' : Option Nat),
      allocFind l s idx fe = .inr fe' →
      (∀ j < l.length, serialAt l j ≠ some s) ∧
      (fe' = fe ∨ (fe = none ∧ ∃ j, j < l.length ∧ l.getD j none = none ∧ fe' = some (idx + j))) := by
  induction l with
  | nil =>
    intro s idx fe fe' h
    rw [allocFind] at h
    obtain rfl : fe = fe' := by injection h
    exact ⟨by intro j hj; simp at hj, Or.inl rfl⟩
  | cons o rest ih =>
    intro s idx fe fe' h
    match o with
    | some e =>
      by_cases he : e.serial = s
      · rw [allocFind, if_pos he] at h
        cases h
      · rw [allocFind, if_neg he] at h
        obtain ⟨h1, h2⟩ := ih s (idx + 1) fe fe' h
        constructor
        · intro j hj
          match j with
          | 0 => rw [serialAt_cons_zero]; simp [he]
          | j + 1 =>
            rw [serialAt_cons_succ]
            exact h1 j (by simp at hj; omega)
        · rcases h2 with h2 | ⟨hfe, j, hj, hemp, hfe'⟩
          · exact Or.inl h2
          · exact Or.inr ⟨hfe, j + 1, by simp; omega,
              by simpa [List.getD_cons_succ] using hemp, by rw [hfe']; congr 1; omega⟩
    | none =>
      rw [allocFind] at h
      obtain ⟨h1, h2⟩ := ih s (idx + 1) _ fe' h
      have hall : ∀ j < (none :: rest : Table).length, serialAt (none :: rest) j ≠ some s := by
        intro j hj
        match j with
        | 0 => rw [serialAt_cons_zero]; simp
        | j + 1 =>
          rw [serialAt_cons_succ]
          exact h1 j (by simp at hj; omega)
      refine ⟨hall, ?_⟩
      match fe with
      | some a =>
        simp only [Option.isNone_some, Bool.false_eq_true, if_false] at h2
        rcases h2 with h2 | ⟨hfe, _⟩
        · exact Or.inl h2
        · cases hfe
      | none =>
        simp only [Option.isNone_none, if_pos] at h2
        rcases h2 with h2 | ⟨hfe, j, hj, hemp, hfe'⟩
        · exact Or.inr ⟨rfl, 0, by simp, rfl, by rw [h2]; congr 1⟩
        · cases hfe

theorem allocFind_finds (l : Table) :
    ∀ (s : Serial) (idx : Nat) (fe : Option Nat) (j : Nat),
      j < l.length → serialAt l j = some s →
      (∀ j' < j, serialAt l j' ≠ some s) →
      allocFind l s idx fe = .inl (idx + j) := by
  induction l with
  | nil => intro s idx fe j hj; simp at hj
  | cons o rest ih =>
    intro s idx fe j hj hmatch hfirst
    match o with
    | some e =>
      by_cases he : e.serial = s
      · have hj0 : j = 0 := by
          by_contra hne
          exact hfirst 0 (by omega) (by rw [serialAt_cons_zero]; simp [he])
        subst hj0
        rw [allocFind, if_pos he, Nat.add_zero]
      · have hj0 : j ≠ 0 := by
          rintro rfl
          rw [serialAt_cons_zero] at hmatch
          simp at hmatch
          exact he hmatch
        obtain ⟨j', rfl⟩ : ∃ j', j = j' + 1 := ⟨j - 1, by omega⟩
        rw [allocFind, if_neg he]
        rw [ih s (idx + 1) fe j' (by simp at hj; omega)
          (by rwa [serialAt_cons_succ] at hmatch)
          (fun m hm => by
            have := hfirst (m + 1) (by omega)
            rwa [serialAt_cons_succ] at this)]
        congr 1
        omega
    | none =>
      have hj0 : j ≠ 0 := by
        rintro rfl
        rw [serialAt_cons_zero] at hmatch
        simp at hmatch
      obtain ⟨j', rfl⟩ : ∃ j', j = j' + 1 := ⟨j - 1, by omega⟩
      rw [allocFind]
      rw [ih s (idx + 1) _ j' (by simp at hj; omega)
        (by rwa [serialAt_cons_succ] at hmatch)
        (fun m hm => by
          have := hfirst (m + 1) (by omega)
          rwa [serialAt_cons_succ] at this)]
      congr 1
      omega

/-! ## C7: allocate_pipe is idempotent on a present serial -/

/-- C7: if some slot `i` already holds serial `s` (and the table
satisfies its uniqueness invariant), `allocate_pipe s` returns
`Existing(i + 1)` — the pipe `s` already occupies — and returns the
table completely unchanged: no `last_seen` refresh, no new slot. -/
theorem table_alloc_idempotent (t : Table) (s : Serial) (now i : Nat) (e : Element)
    (hInv : TableInv t) (hi : i < t.length)
    (he : t.getD i none = some e) (hs : e.serial = s) :
    allocate_pipe t s now = (some (.existing (i + 1)), t) := by
  have hmatch : serialAt t i = some s := by
    unfold serialAt
    rw [he]
    simp [hs]
  have hfirst : ∀ j' < i, serialAt t j' ≠ some s := by
    intro j' hj' hc
    have hne : j' ≠ i := by omega
    exact hInv j' (by omega) i hi hne ⟨by rw [hc]; simp, by rw [hc, hmatch]⟩
  have hfind := allocFind_finds t s 0 none i hi hmatch hfirst
  unfold allocate_pipe
  rw [hfind]
  dsimp only
  rw [Nat.zero_add]

/-- C7 witness for `table_alloc_idempotent`: serial `[1,…,8]` occupies
pipe 2 of a concrete table; re-allocating it returns `Existing(2)` and
the identical table, `last_seen` still `5`. -/
theorem table_alloc_idempotent_witness :
    allocate_pipe
      [some ⟨[9, 9, 9, 9, 9, 9, 9, 9], 3⟩, some ⟨[1, 2, 3, 4, 5, 6, 7, 8], 5⟩,
        none, none, none, none, none]
      [1, 2, 3, 4, 5, 6, 7, 8] 77 =
      (some (.existing 2),
        [some ⟨[9, 9, 9, 9, 9, 9, 9, 9], 3⟩, some ⟨[1, 2, 3, 4, 5, 6, 7, 8], 5⟩,
          none, none, none, none, none]) :=
  table_alloc_idempotent _ [1, 2, 3, 4, 5, 6, 7, 8] 77 1 ⟨[1, 2, 3, 4, 5, 6, 7, 8], 5⟩
    (by decide) (by decide) (by decide) (by decide)

theorem serialAt_set (t : Table) (idx j : Nat) (v : Option Element) (h : idx < t.length) :
    serialAt (t.set idx v) j = if idx = j then v.map (·.serial) else serialAt t j := by
  by_cases hij : idx = j
  · subst hij
    rw [if_pos rfl]
    unfold serialAt
    rw [getD_set_self t idx v h]
  · rw [if_neg hij]
    unfold serialAt
    rw [getD_set_ne t idx j v hij]

theorem lastAt_set (t : Table) (idx j : Nat) (v : Option Element) (h : idx < t.length) :
    lastAt (t.set idx v) j = if idx = j then (v.map (·.lastMsg)).getD 0 else lastAt t j := by
  by_cases hij : idx = j
  · subst hij
    rw [if_pos rfl]
    unfold lastAt
    rw [getD_set_self t idx v h]
  · rw [if_neg hij]
    unfold lastAt
    rw [getD_set_ne t idx j v hij]

theorem cull_getD (t : Table) (now dur j : Nat) :
    (cull_older_than t now dur).getD j none =
      match t.getD j none with
      | some e => if now < e.lastMsg ∨ now - e.lastMsg ≥ dur then none else some e
      | none => none := by
  unfold cull_older_than
  rw [List.getD_eq_getElem?_getD, List.getElem?_map, List.getD_eq_getElem?_getD]
  cases h : t[j]? with
  | none => rfl
  | some o =>
    cases o with
    | none => rfl
    | some e => rfl

/-! ## C6: pipe-table operations preserve the table invariants -/

/-- C6: each of `allocate_pipe`, `update_time` and `cull_older_than`
preserves the pipe-table invariants: slots are one-per-index by
construction (an array of 7 options); no serial ever occupies two
slots (`TableInv`); each surviving slot's `last_seen` is monotonically
non-decreasing (`TimeMono`, under the monotonic-clock assumption
`TimeLE`); and every pipe number `allocate_pipe` hands out lies in
`1..=7` when the table has its real length 7. -/
theorem table_ops_invariants (t : Table) (s : Serial) (pipe now dur : Nat)
    (hInv : TableInv t) (hTime : TimeLE t now) :
    (TableInv (allocate_pipe t s now).2 ∧ TimeMono t (allocate_pipe t s now).2) ∧
    (TableInv (update_time t pipe s now).2 ∧ TimeMono t (update_time t pipe s now).2) ∧
    (TableInv (cull_older_than t now dur) ∧ TimeMono t (cull_older_than t now dur)) ∧
    (∀ r, (allocate_pipe t s now).1 = some r → t.length = 7 → 1 ≤ r.pipe ∧ r.pipe ≤ 7) := by
  have hmono_refl : TimeMono t t := fun i _ _ => le_refl _
  refine ⟨?_, ?_, ?_, ?_⟩
  · -- allocate_pipe
    unfold allocate_pipe
    cases hfind : allocFind t s 0 none with
    | inl i => exact ⟨hInv, hmono_refl⟩
    | inr fe =>
      cases fe with
      | none => exact ⟨hInv, hmono_refl⟩
      | some idx =>
        dsimp only
        obtain ⟨hnomatch, hcase⟩ := allocFind_inr_spec t s 0 none (some idx) hfind
        rcases hcase with hcase | ⟨-, j, hj, hempty, hj'⟩
        · cases hcase
        · obtain rfl : idx = j := by injection hj' with h; omega
          constructor
          · -- TableInv after inserting s at the empty slot idx
            intro a ha b hb hab ⟨hnn, heq⟩
            rw [List.length_set] at ha hb
            rw [serialAt_set t idx a _ hj] at hnn heq
            rw [serialAt_set t idx b _ hj] at heq
            by_cases hia : idx = a <;> by_cases hib : idx = b
            · omega
            · rw [if_pos hia] at heq hnn
              rw [if_neg hib] at heq
              exact hnomatch b hb (by rw [← heq]; rfl)
            · rw [if_neg hia] at heq hnn
              rw [if_pos hib] at heq
              exact hnomatch a ha (by rw [heq]; rfl)
            · rw [if_neg hia] at heq hnn
              rw [if_neg hib] at heq
              exact hInv a ha b hb hab ⟨hnn, heq⟩
          · -- TimeMono: the new slot was empty (lastAt = 0), others unchanged
            intro i hi _
            rw [List.length_set] at hi
            rw [lastAt_set t idx i _ hj]
            by_cases hii : idx = i
            · rw [if_pos hii]
              have h0 : lastAt t i = 0 := by
                unfold lastAt
                rw [← hii, hempty]
                rfl
              rw [h0]
              exact Nat.zero_le _
            · rw [if_neg hii]
  · -- update_time
    unfold update_time
    by_cases hp : pipe = 0
    · rw [if_pos hp]
      exact ⟨hInv, hmono_refl⟩
    · rw [if_neg hp]
      cases hslot : t[pipe - 1]? with
      | none => exact ⟨hInv, hmono_refl⟩
      | some o =>
        cases o with
        | none => exact ⟨hInv, hmono_refl⟩
        | some e =>
          dsimp only
          by_cases hes : e.serial = s
          · rw [if_pos hes]
            have hlt : pipe - 1 < t.length := (List.getElem?_eq_some_iff.mp hslot).1
            have hold : t.getD (pipe - 1) none = some e := by
              rw [List.getD_eq_getElem?_getD, hslot]; rfl
            constructor
            · intro a ha b hb hab ⟨hnn, heq⟩
              rw [List.length_set] at ha hb
              rw [serialAt_set t _ a _ hlt] at hnn heq
              rw [serialAt_set t _ b _ hlt] at heq
              have hsa : serialAt t (pipe - 1) = some e.serial := by
                unfold serialAt; rw [hold]; rfl
              by_cases hia : pipe - 1 = a <;> by_cases hib : pipe - 1 = b
              · omega
              · rw [if_pos hia] at heq hnn
                rw [if_neg hib] at heq
                exact hInv a ha b hb hab ⟨by rw [← hia, hsa]; simp, by rw [← hia, hsa, ← heq]; rfl⟩
              · rw [if_neg hia] at heq hnn
                rw [if_pos hib] at heq
                exact hInv a ha b hb hab ⟨hnn, by rw [heq, ← hib, hsa]; rfl⟩
              · rw [if_neg hia] at heq hnn
                rw [if_neg hib] at heq
                exact hInv a ha b hb hab ⟨hnn, heq⟩
            · intro i hi _
              rw [List.length_set] at hi
              rw [lastAt_set t _ i _ hlt]
              by_cases hii : pipe - 1 = i
              · rw [if_pos hii]
                exact hTime i hi
              · rw [if_neg hii]
          · rw [if_neg hes]
            exact ⟨hInv, hmono_refl⟩
  · -- cull_older_than
    constructor
    · intro a ha b hb hab ⟨hnn, heq⟩
      have hculllen : (cull_older_than t now dur).length = t.length := by
        unfold cull_older_than
        exact List.length_map ..
      rw [hculllen] at ha hb
      have hsa : ∀ x, serialAt (cull_older_than t now dur) x ≠ none →
          serialAt (cull_older_than t now dur) x = serialAt t x := by
        intro x hx
        unfold serialAt at hx ⊢
        rw [cull_getD] at hx ⊢
        revert hx
        cases t.getD x none with
        | none => intro hx; simp at hx
        | some e =>
          intro hx
          dsimp only at hx ⊢
          by_cases hc : now < e.lastMsg ∨ now - e.lastMsg ≥ dur
          · rw [if_pos hc] at hx; simp at hx
          · rw [if_neg hc]
      have ha' := hsa a hnn
      have hb' := hsa b (by rw [← heq]; exact hnn)
      exact hInv a ha b hb hab ⟨by rwa [ha'] at hnn, by rw [← ha', ← hb']; exact heq⟩
    · intro i hi hnn
      unfold lastAt
      unfold serialAt at hnn
      rw [cull_getD] at hnn ⊢
      revert hnn
      cases t.getD i none with
      | none => intro _; exact Nat.zero_le _
      | some e =>
        intro hnn
        dsimp only at hnn ⊢
        by_cases hc : now < e.lastMsg ∨ now - e.lastMsg ≥ dur
        · rw [if_pos hc] at hnn; simp at hnn
        · rw [if_neg hc]
  · -- allocated pipes lie in 1..=7
    intro r hr hlen
    unfold allocate_pipe at hr
    cases hfind : allocFind t s 0 none with
    | inl i =>
      rw [hfind] at hr
      obtain ⟨-, hi, -⟩ := allocFind_inl_spec t s 0 none i hfind
      obtain rfl : r = .existing (i + 1) := by
        dsimp only at hr; injection hr with h; exact h.symm
      simp only [PipeAlloc.pipe]
      omega
    | inr fe =>
      cases fe with
      | none => rw [hfind] at hr; dsimp only at hr; cases hr
      | some idx =>
        rw [hfind] at hr
        obtain ⟨-, hcase⟩ := allocFind_inr_spec t s 0 none (some idx) hfind
        rcases hcase with hcase | ⟨-, j, hj, -, hj'⟩
        · cases hcase
        · obtain rfl : idx = j := by injection hj' with h; omega
          obtain rfl : r = .new (idx + 1) := by
            dsimp only at hr; injection hr with h; exact h.symm
          simp only [PipeAlloc.pipe]
          omega

/-- C6 witness for `table_ops_invariants`: a concrete 7-slot table with
two occupied slots and `now = 50`. -/
theorem table_ops_invariants_witness :
    TableInv (allocate_pipe
      [some ⟨[1, 1, 1, 1, 1, 1, 1, 1], 10⟩, none, some ⟨[2, 2, 2, 2, 2, 2, 2, 2], 40⟩,
        none, none, none, none] [3, 3, 3, 3, 3, 3, 3, 3] 50).2 ∧
    TimeMono
      [some ⟨[1, 1, 1, 1, 1, 1, 1, 1], 10⟩, none, some ⟨[2, 2, 2, 2, 2, 2, 2, 2], 40⟩,
        none, none, none, none]
      (update_time
        [some ⟨[1, 1, 1, 1, 1, 1, 1, 1], 10⟩, none, some ⟨[2, 2, 2, 2, 2, 2, 2, 2], 40⟩,
          none, none, none, none] 1 [1, 1, 1, 1, 1, 1, 1, 1] 50).2 ∧
    TableInv (cull_older_than
      [some ⟨[1, 1, 1, 1, 1, 1, 1, 1], 10⟩, none, some ⟨[2, 2, 2, 2, 2, 2, 2, 2], 40⟩,
        none, none, none, none] 50 30) := by
  have h := table_ops_invariants
    [some ⟨[1, 1, 1, 1, 1, 1, 1, 1], 10⟩, none, some ⟨[2, 2, 2, 2, 2, 2, 2, 2], 40⟩,
      none, none, none, none]
    [3, 3, 3, 3, 3, 3, 3, 3] 1 50 30 (by decide) (by decide)
  have h2 := table_ops_invariants
    [some ⟨[1, 1, 1, 1, 1, 1, 1, 1], 10⟩, none, some ⟨[2, 2, 2, 2, 2, 2, 2, 2], 40⟩,
      none, none, none, none]
    [1, 1, 1, 1, 1, 1, 1, 1] 1 50 30 (by decide) (by decide)
  exact ⟨h.1.1, h2.2.1.2, h.2.2.1.1⟩

/-! ## Chunking lemmas (`slice::chunks(128)`) -/

theorem chunksAux_nil (k fuel : Nat) : chunksAux k fuel [] = [] := by
  cases fuel <;> rfl

theorem ceilDiv_succ (k L : Nat) (hk : 1 ≤ k) (hL : 1 ≤ L) :
    (L + k - 1) / k = (L - 1) / k + 1 := by
  rw [show L + k - 1 = (L - 1) + k by omega, Nat.add_div_right _ (by omega)]

theorem chunksAux_eq_range_map (k : Nat) (hk : 1 ≤ k) :
    ∀ (fuel : Nat) (l : List Nat), l.length ≤ fuel →
      chunksAux k fuel l =
        (List.range ((l.length + k - 1) / k)).map (fun i => (l.drop (k * i)).take k) := by
  intro fuel
  induction fuel with
  | zero =>
    intro l hl
    obtain rfl : l = [] := List.length_eq_zero.mp (by omega)
    rw [chunksAux_nil, List.length_nil, Nat.div_eq_of_lt (by omega)]
    rfl
  | succ fuel ih =>
    intro l hl
    match l with
    | [] =>
      rw [chunksAux_nil, List.length_nil, Nat.div_eq_of_lt (by omega)]
      rfl
    | a :: l =>
      rw [show chunksAux k (fuel + 1) (a :: l) =
        (a :: l).take k :: chunksAux k fuel ((a :: l).drop k) from rfl]
      simp only [List.length_cons] at hl
      have hdl : ((a :: l).drop k).length = l.length + 1 - k := by
        simp [List.length_drop]
      have hlen1 : 1 ≤ (a :: l).length := by simp
      have hcount : ((a :: l).length + k - 1) / k =
          (((a :: l).drop k).length + k - 1) / k + 1 := by
        rw [hdl, List.length_cons, ceilDiv_succ k (l.length + 1) hk (by omega)]
        by_cases hle : l.length + 1 ≤ k
        · rw [show l.length + 1 - k = 0 by omega]
          rw [Nat.div_eq_of_lt (show l.length + 1 - 1 < k by omega),
            Nat.div_eq_of_lt (show 0 + k - 1 < k by omega)]
        · rw [ceilDiv_succ k (l.length + 1 - k) hk (by omega)]
          rw [show l.length + 1 - 1 = ((l.length + 1 - k) - 1) + k by omega,
            Nat.add_div_right _ (show 0 < k by omega)]
      rw [hcount, List.range_succ_eq_map, List.map_cons]
      congr 1
      rw [ih ((a :: l).drop k) (by rw [hdl]; omega)]
      rw [List.map_map]
      apply List.map_congr_left
      intro i _
      simp only [Function.comp]
      rw [List.drop_drop]
      congr 2
      rw [Nat.succ_eq_add_one, Nat.mul_add, Nat.mul_one]
      omega

theorem chunksOf_eq_range_map (k : Nat) (hk : 1 ≤ k) (l : List Nat) :
    chunksOf k l =
      (List.range ((l.length + k - 1) / k)).map (fun i => (l.drop (k * i)).take k) :=
  chunksAux_eq_range_map k hk l.length l (le_refl _)

theorem chunksAux_flatten (k : Nat) (hk : 1 ≤ k) :
    ∀ (fuel : Nat) (l : List Nat), l.length ≤ fuel → (chunksAux k fuel l).flatten = l := by
  intro fuel
  induction fuel with
  | zero =>
    intro l hl
    obtain rfl : l = [] := List.length_eq_zero.mp (by omega)
    rfl
  | succ fuel ih =>
    intro l hl
    match l with
    | [] => rfl
    | a :: l =>
      rw [show chunksAux k (fuel + 1) (a :: l) =
        (a :: l).take k :: chunksAux k fuel ((a :: l).drop k) from rfl]
      simp only [List.length_cons] at hl
      rw [List.flatten_cons, ih ((a :: l).drop k)
        (by simp only [List.length_drop, List.length_cons]; omega)]
      exact List.take_append_drop k (a :: l)

theorem chunksOf_flatten (k : Nat) (hk : 1 ≤ k) (l : List Nat) :
    (chunksOf k l).flatten = l :=
  chunksAux_flatten k hk l.length l (le_refl _)

/-! ## C4 / C5: the host→node proxy handler -/

theorem pfsFind_le (l : Table) :
    ∀ (s : Serial) (idx p : Nat), pfsFind l s idx = some p → p ≤ idx + l.length := by
  induction l with
  | nil => intro s idx p h; simp [pfsFind] at h
  | cons o rest ih =>
    intro s idx p h
    match o with
    | some e =>
      by_cases he : e.serial = s
      · rw [pfsFind, if_pos he] at h
        injection h with h
        simp
        omega
      · rw [pfsFind, if_neg he] at h
        have := ih s (idx + 1) p h
        simp
        omega
    | none =>
      rw [pfsFind] at h
      have := ih s (idx + 1) p h
      simp
      omega

theorem pipe_for_serial_le (t : Table) (s : Serial) (p : Nat)
    (h : pipe_for_serial t s = some p) : p ≤ t.length :=
  by simpa using pfsFind_le t s 0 p h

theorem proxyLoop_ok (pipe chunks : Nat) (grants : Nat → Bool) (hp : pipe ≤ 7)
    (hg : ∀ j, grants j = true) :
    ∀ (cs : List (List Nat)) (i : Nat) (sent : List Frame),
      proxyLoop pipe chunks grants i cs sent =
        .ok (sent.reverse ++ framesFor pipe chunks i cs) := by
  intro cs
  induction cs with
  | nil =>
    intro i sent
    simp [proxyLoop, framesFor]
  | cons ch rest ih =>
    intro i sent
    rw [proxyLoop, if_neg (by omega), if_pos (hg i), ih (i + 1)]
    simp [framesFor, List.append_assoc]

theorem proxyLoop_panic (pipe chunks : Nat) (grants : Nat → Bool) (hp : pipe ≤ 7) :
    ∀ (cs : List (List Nat)) (i : Nat) (sent : List Frame) (k : Nat),
      k < cs.length → (∀ j < k, grants (i + j) = true) → grants (i + k) = false →
      proxyLoop pipe chunks grants i cs sent =
        .panicked (sent.reverse ++ framesFor pipe chunks i (cs.take k)) := by
  intro cs
  induction cs with
  | nil => intro i sent k hk; simp at hk
  | cons ch rest ih =>
    intro i sent k hk hbefore hfail
    match k with
    | 0 =>
      rw [proxyLoop, if_neg (by omega), if_neg (by simpa using hfail)]
      simp [framesFor]
    | k + 1 =>
      have hg0 : grants i = true := by simpa using hbefore 0 (by omega)
      rw [proxyLoop, if_neg (by omega), if_pos hg0]
      rw [ih (i + 1) _ k (by simp at hk; omega)
        (fun j hj => by
          have := hbefore (j + 1) (by omega)
          rwa [show i + (j + 1) = i + 1 + j by omega] at this)
        (by rwa [show i + 1 + k = i + (k + 1) by omega])]
      simp [framesFor, List.take_succ_cons, List.append_assoc]

theorem framesFor_map_range (pipe chunks : Nat) :
    ∀ (n : Nat) (f : Nat → List Nat) (start : Nat),
      framesFor pipe chunks start ((List.range n).map f) =
        (List.range n).map (fun i => ⟨pipe, (start + i) % 256, chunks % 256, f i⟩) := by
  intro n
  induction n with
  | zero => intro f start; rfl
  | succ n ih =>
    intro f start
    rw [List.range_succ_eq_map, List.map_cons, List.map_cons, framesFor, List.map_map,
      ih (f ∘ Nat.succ) (start + 1), List.map_map]
    refine congrArg₂ List.cons (by rw [Nat.add_zero]) ?_
    apply List.map_congr_left
    intro i _
    simp only [Function.comp]
    rw [show start + 1 + i = start + (i + 1) by omega]

/-- C4 (amended): a failed radio TX grant while transmitting a chunk
makes `proxy_handler` panic (diverge) — it is *not* surfaced to the
caller as `UnknownDevice`; the chunks already committed before the
failure stay sent (no rollback).  `UnknownDevice` is returned (only)
when no pipe is allocated for the serial. -/
theorem proxy_handler_grant_error_panics (t : Table) (s : Serial) (msg : List Nat)
    (grants : Nat → Bool) (p k : Nat)
    (hlen7 : t.length = 7)
    (hp : pipe_for_serial t s = some p)
    (hk : k < (chunksOf 128 msg).length)
    (hbefore : ∀ j < k, grants j = true) (hfail : grants k = false) :
    proxy_handler t s msg grants =
      .panicked (framesFor p ((msg.length + 127) / 128) 0 ((chunksOf 128 msg).take k)) ∧
    (∀ (s2 : Serial), pipe_for_serial t s2 = none →
      proxy_handler t s2 msg grants = .err .unknownDevice) := by
  have hp7 : p ≤ 7 := hlen7 ▸ pipe_for_serial_le t s p hp
  constructor
  · unfold proxy_handler
    rw [hp]
    dsimp only
    rw [proxyLoop_panic p ((msg.length + 127) / 128) grants hp7 (chunksOf 128 msg) 0 [] k hk
      (fun j hj => by simpa using hbefore j hj) (by simpa using hfail)]
    rfl
  · intro s2 h2
    unfold proxy_handler
    rw [h2]

set_option maxRecDepth 8000 in
/-- C4 witness for `proxy_handler_grant_error_panics`: a radio that
grants the first chunk and refuses the second; the handler panics with
exactly the first 128-byte frame already sent. -/
theorem proxy_handler_grant_error_panics_witness :
    proxy_handler [some ⟨[1, 2, 3, 4, 5, 6, 7, 8], 0⟩, none, none, none, none, none, none]
        [1, 2, 3, 4, 5, 6, 7, 8] (List.replicate 200 9) (fun i => decide (i = 0)) =
      .panicked (framesFor 1 2 0 ((chunksOf 128 (List.replicate 200 9)).take 1)) :=
  (proxy_handler_grant_error_panics _ [1, 2, 3, 4, 5, 6, 7, 8] (List.replicate 200 9)
    (fun i => decide (i = 0)) 1 1 (by decide) (by decide) (by decide)
    (by intro j hj; interval_cases j; decide) (by decide)).1

/-- C4 counterexample: with the serial present on pipe 1 and a radio
that refuses every TX grant, `proxy_handler` panics — the claim that a
radio send error is returned as `Err(UnknownDevice)` rather than
diverging is false. -/
theorem proxy_handler_send_error_counterexample :
    proxy_handler [some ⟨[1, 2, 3, 4, 5, 6, 7, 8], 0⟩, none, none, none, none, none, none]
        [1, 2, 3, 4, 5, 6, 7, 8] [7] (fun _ => false) = .panicked [] ∧
    proxy_handler [some ⟨[1, 2, 3, 4, 5, 6, 7, 8], 0⟩, none, none, none, none, none, none]
        [1, 2, 3, 4, 5, 6, 7, 8] [7] (fun _ => false) ≠ .err .unknownDevice := by
  decide

/-- C5: for a `ProxyMessage{serial, msg}` whose serial occupies pipe `p`
(and whose length respects the 1024-byte protocol cap on frames), with
every radio grant succeeding, the bridge transmits exactly
`⌈len(msg)/128⌉` frames on pipe `p`; the `i`-th carries
`Proxy{part = i, total_parts = ⌈len(msg)/128⌉}` followed by
`msg[128·i .. min(128·(i+1), len)]`, and the fragment payloads
concatenate back to `msg`. -/
theorem proxy_handler_fragments (t : Table) (s : Serial) (msg : List Nat) (p : Nat)
    (hlen7 : t.length = 7) (hp : pipe_for_serial t s = some p)
    (hmsg : msg.length ≤ 1024) :
    proxy_handler t s msg (fun _ => true) =
      .ok ((List.range ((msg.length + 127) / 128)).map
        (fun i => ⟨p, i, (msg.length + 127) / 128, (msg.drop (128 * i)).take 128⟩)) ∧
    ((List.range ((msg.length + 127) / 128)).map
        (fun i => (msg.drop (128 * i)).take 128)).flatten = msg := by
  have hp7 : p ≤ 7 := hlen7 ▸ pipe_for_serial_le t s p hp
  have hchunks : chunksOf 128 msg =
      (List.range ((msg.length + 127) / 128)).map (fun i => (msg.drop (128 * i)).take 128) := by
    rw [chunksOf_eq_range_map 128 (by omega) msg,
      show msg.length + 128 - 1 = msg.length + 127 by omega]
  have hcb : (msg.length + 127) / 128 < 256 := by
    have : (msg.length + 127) / 128 ≤ (1024 + 127) / 128 :=
      Nat.div_le_div_right (by omega)
    omega
  constructor
  · unfold proxy_handler
    rw [hp]
    dsimp only
    rw [proxyLoop_ok p ((msg.length + 127) / 128) (fun _ => true) hp7 (fun _ => rfl)
      (chunksOf 128 msg) 0 [], hchunks,
      framesFor_map_range p ((msg.length + 127) / 128) ((msg.length + 127) / 128)
        (fun i => (msg.drop (128 * i)).take 128) 0]
    rw [List.reverse_nil, List.nil_append]
    congr 1
    apply List.map_congr_left
    intro i hi
    rw [List.mem_range] at hi
    rw [Nat.zero_add, Nat.mod_eq_of_lt (by omega), Nat.mod_eq_of_lt hcb]
  · rw [← hchunks]
    exact chunksOf_flatten 128 (by omega) msg

set_option maxRecDepth 16000 in
/-- C5 witness for `proxy_handler_fragments`: a 300-byte message is
sent as three frames `{0,3}`, `{1,3}`, `{2,3}` of 128+128+44 bytes that
concatenate back to the message (the spec's scenario S4). -/
theorem proxy_handler_fragments_witness :
    proxy_handler [some ⟨[1, 2, 3, 4, 5, 6, 7, 8], 0⟩, none, none, none, none, none, none]
        [1, 2, 3, 4, 5, 6, 7, 8] (List.replicate 300 5) (fun _ => true) =
      .ok ((List.range 3).map
        (fun i => ⟨1, i, 3, ((List.replicate 300 5).drop (128 * i)).take 128⟩)) ∧
    ((List.range 3).map
        (fun i => ((List.replicate 300 5).drop (128 * i)).take 128)).flatten =
      List.replicate 300 5 := by
  have h := proxy_handler_fragments
    [some ⟨[1, 2, 3, 4, 5, 6, 7, 8], 0⟩, none, none, none, none, none, none]
    [1, 2, 3, 4, 5, 6, 7, 8] (List.replicate 300 5) 1 (by decide) (by decide)
    (by simp)
  exact h

/-! ## C3: bridge dispatch of Keepalive and Proxy packets -/

/-- C3 (amended): for a radio packet on pipe `n ∈ 1..7`:
a N2B `Keepalive{serial}` is answered with `Keepalive{serial}` exactly
when `update_time(n, serial)` returns true and with `Reset` when it
returns false; a N2B `Proxy{part, total}` with payload is handled as
follows — if no serial is allocated for pipe `n` the bridge replies
`Reset`; with an allocated serial, `total = 0` is dropped silently;
the single-fragment fast path `part = 0 ∧ total = 1` publishes the
payload directly on the Bridge→Host topic without touching the
fragment buffer; any other fragment is fed to pipe `n`'s fragment
buffer with no reply, publishing `ProxyMessage{serial, reassembled}`
exactly when reassembly completes. -/
theorem bridge_dispatch_amended (st : BridgeSt) (n : Nat) (s : Serial)
    (payload : List Nat) (now : Nat) (hn : 1 ≤ n) :
    (bridgeHandle st n (.keepalive s) payload now =
      (if (update_time st.table n s now).1
       then .ok ⟨some (.keepalive s), none⟩ { st with table := (update_time st.table n s now).2 }
       else .ok ⟨some .reset, none⟩ { st with table := (update_time st.table n s now).2 })) ∧
    (serial_for_pipe st.table n = none →
      ∀ part ttl : Nat, bridgeHandle st n (.proxy part ttl) payload now =
        .ok ⟨some .reset, none⟩ st) ∧
    (∀ ser : Serial, serial_for_pipe st.table n = some ser →
      (∀ part : Nat, bridgeHandle st n (.proxy part 0) payload now = .ok ⟨none, none⟩ st) ∧
      (bridgeHandle st n (.proxy 0 1) payload now = .ok ⟨none, some (ser, payload)⟩ st) ∧
      (∀ (part ttl : Nat) (res : Option (List Nat)) (fb' : FragBuf),
        1 ≤ ttl → ¬(part = 0 ∧ ttl = 1) →
        (st.fbufs (n - 1)).handle_frag part ttl payload = (.ok res, fb') →
        bridgeHandle st n (.proxy part ttl) payload now =
          .ok ⟨none, res.map (fun d => (ser, d))⟩
            { st with fbufs := fun i => if i = n - 1 then fb' else st.fbufs i })) := by
  obtain ⟨m, rfl⟩ : ∃ m, n = m + 1 := ⟨n - 1, by omega⟩
  refine ⟨?_, ?_, ?_⟩
  · cases hu : (update_time st.table (m + 1) s now).1 with
    | true => simp [bridgeHandle, hu]
    | false => simp [bridgeHandle, hu]
  · intro hnone part ttl
    simp [bridgeHandle, bridgeProxy, hnone]
  · intro ser hser
    refine ⟨?_, ?_, ?_⟩
    · intro part
      simp [bridgeHandle, bridgeProxy, hser]
    · simp [bridgeHandle, bridgeProxy, hser]
    · intro part ttl res fb' httl hnot hfrag
      simp only [bridgeHandle, bridgeProxy, hser]
      rw [if_neg (by omega), if_neg hnot, hfrag]

/-- C3 witness for `bridge_dispatch_amended`: with no serial on pipe 1
a Proxy fragment is answered `Reset`; with a serial allocated, the
single-fragment fast path publishes the payload directly and an
out-of-sequence multi-fragment piece is dropped via the buffer. -/
theorem bridge_dispatch_amended_witness :
    (bridgeHandle ⟨[none, none, none, none, none, none, none], fun _ => FragBuf.new⟩
      1 (.proxy 0 2) [1] 0 =
      .ok ⟨some .reset, none⟩
        ⟨[none, none, none, none, none, none, none], fun _ => FragBuf.new⟩) ∧
    (bridgeHandle ⟨[some ⟨[1, 2, 3, 4, 5, 6, 7, 8], 0⟩, none, none, none, none, none, none],
        fun _ => FragBuf.new⟩ 1 (.proxy 0 1) [9, 9] 0 =
      .ok ⟨none, some ([1, 2, 3, 4, 5, 6, 7, 8], [9, 9])⟩
        ⟨[some ⟨[1, 2, 3, 4, 5, 6, 7, 8], 0⟩, none, none, none, none, none, none],
          fun _ => FragBuf.new⟩) := by
  constructor
  · exact (bridge_dispatch_amended _ 1 [0, 0, 0, 0, 0, 0, 0, 0] [1] 0 (by decide)).2.1
      (by decide) 0 2
  · exact ((bridge_dispatch_amended _ 1 [0, 0, 0, 0, 0, 0, 0, 0] [9, 9] 0 (by decide)).2.2
      [1, 2, 3, 4, 5, 6, 7, 8] (by decide)).2.1

/-- C3 counterexample: (i) a Proxy fragment on a pipe with no allocated
serial is answered with `Reset` — not "no reply" as the claim states;
(ii) a single-fragment Proxy (`part = 0`, `total = 1`) on an allocated
pipe is published directly while the pipe's fragment buffer — in the
middle of an unrelated frame — is not fed at all: it stays
`Active(5, 1, 3)` and the publish happens although `handle_frag` would
have returned no completed frame. -/
theorem bridge_dispatch_counterexample :
    (bridgeHandle ⟨[none, none, none, none, none, none, none], fun _ => FragBuf.new⟩
      1 (.proxy 0 2) [1] 0).replyOf = some .reset ∧
    (bridgeHandle ⟨[some ⟨[1, 2, 3, 4, 5, 6, 7, 8], 0⟩, none, none, none, none, none, none],
      fun _ => ⟨fun _ => 0, .active 5 1 3⟩⟩ 1 (.proxy 0 1) [9, 9] 0).pubOf =
        some ([1, 2, 3, 4, 5, 6, 7, 8], [9, 9]) ∧
    (bridgeHandle ⟨[some ⟨[1, 2, 3, 4, 5, 6, 7, 8], 0⟩, none, none, none, none, none, none],
      fun _ => ⟨fun _ => 0, .active 5 1 3⟩⟩ 1 (.proxy 0 1) [9, 9] 0).fbufStatusOf 0 =
        some (.active 5 1 3) ∧
    ((⟨fun _ => 0, .active 5 1 3⟩ : FragBuf).handle_frag 0 1 [9, 9]).1 = .ok none := by
  decide

/-! ## C8: varint / zigzag round trip -/

theorem varint_roundtrip :
    ∀ (fuel F n : Nat) (r : List Nat), n < 2 ^ (7 * fuel) → max fuel 1 ≤ F →
      varintDecode F (varintEncodeAux fuel n ++ r) = some (n, r) := by
  intro fuel
  induction fuel with
  | zero =>
    intro F n r hn hF
    obtain rfl : n = 0 := by simpa using hn
    obtain ⟨F', rfl⟩ : ∃ F', F = F' + 1 := ⟨F - 1, by omega⟩
    rw [varintEncodeAux, List.cons_append, varintDecode, if_pos (by omega)]
    simp
  | succ fuel ih =>
    intro F n r hn hF
    obtain ⟨F', rfl⟩ : ∃ F', F = F' + 1 := ⟨F - 1, by omega⟩
    by_cases h128 : n < 128
    · rw [varintEncodeAux, if_pos h128, List.cons_append, varintDecode, if_pos h128]
      simp
    · have hfuel1 : 1 ≤ fuel := by
        by_contra hc
        have : fuel = 0 := by omega
        subst this
        simp at hn
        omega
      rw [varintEncodeAux, if_neg h128, List.cons_append, varintDecode,
        if_neg (by omega)]
      rw [ih F' (n / 128) r
        (by
          have : n < 2 ^ (7 * fuel) * 128 := by
            have h7 : 7 * (fuel + 1) = 7 * fuel + 7 := by ring
            rw [h7, pow_add] at hn
            simpa using hn
          omega)
        (by omega)]
      show some ((n % 128 + 128 - 128) + 128 * (n / 128), r) = some (n, r)
      congr 2
      omega

theorem zigzag_roundtrip (z : Int) : zigzagDecode (zigzagEncode z) = z := by
  unfold zigzagEncode zigzagDecode
  by_cases hz : 0 ≤ z
  · rw [if_pos hz, if_pos (by omega)]
    omega
  · rw [if_neg hz]
    have h1 : 1 ≤ (-z).toNat := by omega
    rw [if_neg (by omega)]
    have : (2 * (-z).toNat - 1) / 2 = (-z).toNat - 1 := by omega
    rw [this]
    omega

theorem zigzagEncode_lt (z : Int) (hlo : -(2 ^ 31) ≤ z) (hhi : z < 2 ^ 31) :
    zigzagEncode z < 2 ^ 32 := by
  unfold zigzagEncode
  by_cases hz : 0 ≤ z
  · rw [if_pos hz]; omega
  · rw [if_neg hz]; omega

theorem takeI32_encodeI32 (z : Int) (r : List Nat)
    (hlo : -(2 ^ 31) ≤ z) (hhi : z < 2 ^ 31) :
    takeI32 (encodeI32 z ++ r) = some (z, r) := by
  unfold takeI32 encodeI32 varintEncode
  rw [varint_roundtrip 5 5 (zigzagEncode z) r
    (lt_of_lt_of_le (zigzagEncode_lt z hlo hhi) (by norm_num)) (by omega)]
  dsimp only
  rw [if_pos (zigzagEncode_lt z hlo hhi), zigzag_roundtrip]

theorem varintEncodeAux_ne_nil (fuel n : Nat) : varintEncodeAux fuel n ≠ [] := by
  cases fuel with
  | zero => simp [varintEncodeAux]
  | succ fuel =>
    rw [varintEncodeAux]
    by_cases h : n < 128
    · rw [if_pos h]; simp
    · rw [if_neg h]; simp

theorem serializeState_ne_nil (s : RleState) : serializeState s ≠ [] := by
  cases s with
  | run v len =>
    unfold serializeState encodeI32 varintEncode
    intro h
    have := varintEncodeAux_ne_nil 5 (zigzagEncode (toI32 len))
    simp at h
  | raw rvals =>
    unfold serializeState encodeI32 varintEncode
    intro h
    have := varintEncodeAux_ne_nil 5 (zigzagEncode (-(toI32 rvals.length)))
    simp at h
    exact this h.1

theorem toI32_of_lt (n : Nat) (h : n < 2 ^ 31) : toI32 n = n := by
  unfold toI32
  have h1 : (0 : Int) ≤ (n : Int) + 2 ^ 31 := by positivity
  have h2 : (n : Int) + 2 ^ 31 < 2 ^ 32 := by
    have : (n : Int) < 2 ^ 31 := by exact_mod_cast h
    omega
  rw [Int.emod_eq_of_lt h1 h2]
  ring

/-! ## C8: the encoder state machine -/

theorem expandAll_nil : expandAll [] = [] := rfl

theorem expandAll_cons (s : RleState) (rest : List RleState) :
    expandAll (s :: rest) = expandAll rest ++ expandState s := by
  unfold expandAll
  rw [List.reverse_cons, List.map_append, List.flatten_append]
  simp

theorem expandAll_rleStep (rs : List RleState) (c : Nat) :
    expandAll (rleStep rs c) = expandAll rs ++ [c] := by
  match rs with
  | [] =>
    rw [rleStep]
    simp [expandAll, expandState]
  | .raw [] :: rest =>
    rw [rleStep, expandAll_cons, expandAll_cons]
    simp [expandState]
  | .raw (t :: rv) :: rest =>
    rw [rleStep]
    by_cases htc : t = c
    · rw [if_pos htc]
      by_cases hrv : rv = []
      · rw [if_pos hrv]
        subst hrv htc
        rw [expandAll_cons, expandAll_cons]
        simp [expandState, List.replicate]
      · rw [if_neg hrv]
        subst htc
        rw [expandAll_cons, expandAll_cons, expandAll_cons]
        simp [expandState, List.replicate, List.append_assoc]
    · rw [if_neg htc]
      rw [expandAll_cons, expandAll_cons]
      simp [expandState]
  | .run v len :: rest =>
    rw [rleStep]
    by_cases hvc : v = c
    · rw [if_pos hvc]
      subst hvc
      rw [expandAll_cons, expandAll_cons]
      simp [expandState, List.replicate_succ', List.append_assoc]
    · rw [if_neg hvc]
      by_cases hlen : len = 1
      · rw [if_pos hlen]
        subst hlen
        rw [expandAll_cons, expandAll_cons]
        simp [expandState, List.replicate, List.append_assoc]
      · rw [if_neg hlen]
        rw [expandAll_cons, expandAll_cons]
        simp [expandState, List.append_assoc]

theorem expandAll_foldl (bytes : List Nat) :
    ∀ (rs : List RleState), expandAll (bytes.foldl rleStep rs) = expandAll rs ++ bytes := by
  induction bytes with
  | nil => intro rs; simp
  | cons c bytes ih =>
    intro rs
    rw [List.foldl_cons, ih (rleStep rs c), expandAll_rleStep]
    simp [List.append_assoc]

/-- The encoder's states expand back to exactly the input stream. -/
theorem expand_rleEncode (bytes : List Nat) :
    ((rleEncode bytes).map expandState).flatten = bytes := by
  have := expandAll_foldl bytes []
  unfold expandAll at this
  unfold rleEncode
  simpa using this

theorem rleStep_good (rs : List RleState) (c : Nat)
    (h : ∀ s ∈ rs, GoodState s) : ∀ s ∈ rleStep rs c, GoodState s := by
  match rs with
  | [] =>
    rw [rleStep]
    intro s hs
    simp at hs
    subst hs
    simp [GoodState]
  | .raw [] :: rest =>
    rw [rleStep]
    intro s hs
    rcases List.mem_cons.mp hs with rfl | hs
    · simp [GoodState]
    · exact h s (List.mem_cons_of_mem _ hs)
  | .raw (t :: rv) :: rest =>
    rw [rleStep]
    intro s hs
    by_cases htc : t = c
    · rw [if_pos htc] at hs
      by_cases hrv : rv = []
      · rw [if_pos hrv] at hs
        rcases List.mem_cons.mp hs with rfl | hs
        · simp [GoodState]
        · exact h s (List.mem_cons_of_mem _ hs)
      · rw [if_neg hrv] at hs
        rcases List.mem_cons.mp hs with rfl | hs
        · simp [GoodState]
        · rcases List.mem_cons.mp hs with rfl | hs
          · simp [GoodState, hrv]
          · exact h s (List.mem_cons_of_mem _ hs)
    · rw [if_neg htc] at hs
      rcases List.mem_cons.mp hs with rfl | hs
      · simp [GoodState]
      · exact h s (List.mem_cons_of_mem _ hs)
  | .run v len :: rest =>
    rw [rleStep]
    intro s hs
    have hgrun : GoodState (.run v len) := h _ (List.mem_cons_self _ _)
    by_cases hvc : v = c
    · rw [if_pos hvc] at hs
      rcases List.mem_cons.mp hs with rfl | hs
      · simp [GoodState]
      · exact h s (List.mem_cons_of_mem _ hs)
    · rw [if_neg hvc] at hs
      by_cases hlen : len = 1
      · rw [if_pos hlen] at hs
        rcases List.mem_cons.mp hs with rfl | hs
        · simp [GoodState]
        · exact h s (List.mem_cons_of_mem _ hs)
      · rw [if_neg hlen] at hs
        rcases List.mem_cons.mp hs with rfl | hs
        · simp [GoodState]
        · rcases List.mem_cons.mp hs with rfl | hs
          · exact hgrun
          · exact h s (List.mem_cons_of_mem _ hs)

theorem rleEncode_good (bytes : List Nat) : ∀ s ∈ rleEncode bytes, GoodState s := by
  have hfold : ∀ (bs : List Nat) (rs : List RleState), (∀ s ∈ rs, GoodState s) →
      ∀ s ∈ bs.foldl rleStep rs, GoodState s := by
    intro bs
    induction bs with
    | nil => intro rs h; simpa using h
    | cons c bs ih =>
      intro rs h
      rw [List.foldl_cons]
      exact ih (rleStep rs c) (rleStep_good rs c h)
  intro s hs
  unfold rleEncode at hs
  exact hfold bytes [] (by simp) s (List.mem_reverse.mp hs)

theorem length_le_flatten_length {α : Type} (f : α → List Nat) (l : List α) (s : α)
    (h : s ∈ l) : (f s).length ≤ ((l.map f).flatten).length := by
  induction l with
  | nil => simp at h
  | cons a l ih =>
    rw [List.map_cons, List.flatten_cons, List.length_append]
    rcases List.mem_cons.mp h with rfl | h
    · omega
    · have := ih h
      omega

theorem count_le_flatten_length {α : Type} (f : α → List Nat) (l : List α)
    (h : ∀ s ∈ l, 1 ≤ (f s).length) : l.length ≤ ((l.map f).flatten).length := by
  induction l with
  | nil => simp
  | cons a l ih =>
    rw [List.map_cons, List.flatten_cons, List.length_append, List.length_cons]
    have h1 := h a (List.mem_cons_self _ _)
    have h2 := ih (fun s hs => h s (List.mem_cons_of_mem _ hs))
    omega

/-! ## C8: decoding the serialized encoder states -/

theorem decode_serialized (states : List RleState) :
    ∀ (fuel : Nat) (buf : List Nat),
      (∀ s ∈ states, GoodState s) →
      (∀ s ∈ states, (expandState s).length < 2 ^ 31) →
      buf.length = ((states.map expandState).flatten).length →
      states.length ≤ fuel →
      decodeToAux fuel ((states.map serializeState).flatten) buf =
        .ok ((states.map expandState).flatten) := by
  induction states with
  | nil =>
    intro fuel buf _ _ hbuf _
    obtain rfl : buf = [] := List.length_eq_zero.mp (by simpa using hbuf)
    cases fuel <;> rfl
  | cons st rest ih =>
    intro fuel buf hgood hbnd hbuf hfuel
    obtain ⟨f, rfl⟩ : ∃ f, fuel = f + 1 := ⟨fuel - 1, by simp at hfuel; omega⟩
    simp only [List.map_cons, List.flatten_cons] at hbuf ⊢
    have hgst := hgood st (List.mem_cons_self _ _)
    have hbst := hbnd st (List.mem_cons_self _ _)
    match st with
    | .run v len =>
      have hlen1 : 1 ≤ len := hgst
      have hlen31 : len < 2 ^ 31 := by
        simpa [expandState] using hbst
      rw [show serializeState (.run v len) = encodeI32 (toI32 len) ++ [v] from rfl]
      obtain ⟨a, d, hconsI⟩ : ∃ a d, encodeI32 (toI32 len) = a :: d := by
        have hne := varintEncodeAux_ne_nil 5 (zigzagEncode (toI32 len))
        unfold encodeI32 varintEncode
        exact List.exists_cons_of_ne_nil hne
      rw [List.append_assoc, hconsI, List.cons_append, decodeToAux, ← List.cons_append,
        ← hconsI]
      rw [takeI32_encodeI32 (toI32 len) _
        (by rw [toI32_of_lt len hlen31]; omega)
        (by rw [toI32_of_lt len hlen31]; exact_mod_cast hlen31)]
      rw [toI32_of_lt len hlen31]
      dsimp only
      have hnatAbs : (len : Int).natAbs = len := Int.natAbs_ofNat len
      have hexp : expandState (.run v len) = List.replicate len v := rfl
      rw [hexp] at hbuf ⊢
      simp only [List.length_append, List.length_replicate] at hbuf
      rw [if_neg (by rw [hnatAbs]; omega), if_neg (by omega)]
      rw [List.singleton_append, hnatAbs]
      dsimp only
      rw [ih f (buf.drop len)
        (fun s hs => hgood s (List.mem_cons_of_mem _ hs))
        (fun s hs => hbnd s (List.mem_cons_of_mem _ hs))
        (by rw [List.length_drop]; omega)
        (by simp at hfuel; omega)]
    | .raw rvals =>
      have hne : rvals ≠ [] := hgst
      have hL1 : 1 ≤ rvals.length := List.length_pos.mpr hne
      have hL31 : rvals.length < 2 ^ 31 := by
        simpa [expandState] using hbst
      rw [show serializeState (.raw rvals) =
        encodeI32 (-(toI32 rvals.length)) ++ rvals.reverse from rfl]
      obtain ⟨a, d, hconsI⟩ : ∃ a d, encodeI32 (-(toI32 rvals.length)) = a :: d := by
        have hne' := varintEncodeAux_ne_nil 5 (zigzagEncode (-(toI32 rvals.length)))
        unfold encodeI32 varintEncode
        exact List.exists_cons_of_ne_nil hne'
      rw [List.append_assoc, hconsI, List.cons_append, decodeToAux, ← List.cons_append,
        ← hconsI]
      rw [takeI32_encodeI32 (-(toI32 rvals.length)) _
        (by rw [toI32_of_lt _ hL31]; omega)
        (by rw [toI32_of_lt _ hL31]; omega)]
      rw [toI32_of_lt _ hL31]
      dsimp only
      have hnatAbs : (-(rvals.length : Int)).natAbs = rvals.length := by
        rw [Int.natAbs_neg, Int.natAbs_ofNat]
      have hexp : expandState (.raw rvals) = rvals.reverse := rfl
      rw [hexp] at hbuf ⊢
      simp only [List.length_append, List.length_reverse] at hbuf
      rw [if_neg (by rw [hnatAbs]; omega)]
      rw [if_pos (show -(rvals.length : Int) < 0 by omega)]
      rw [hnatAbs]
      rw [if_neg (by rw [List.length_append, List.length_reverse]; omega)]
      rw [show (rvals.reverse ++ (rest.map serializeState).flatten).take rvals.length =
        rvals.reverse from by
          rw [show rvals.length = rvals.reverse.length by simp]
          exact List.take_left _ _]
      rw [show (rvals.reverse ++ (rest.map serializeState).flatten).drop rvals.length =
        (rest.map serializeState).flatten from by
          rw [show rvals.length = rvals.reverse.length by simp]
          exact List.drop_left _ _]
      rw [ih f (buf.drop rvals.length)
        (fun s hs => hgood s (List.mem_cons_of_mem _ hs))
        (fun s hs => hbnd s (List.mem_cons_of_mem _ hs))
        (by rw [List.length_drop]; omega)
        (by simp at hfuel; omega)]

/-- C8 (amended): for every byte stream shorter than `2^31` bytes,
encoding it with the host's literal/run scheme (negative postcard `i32`
length = literal bytes, positive length = one byte repeated) and
running `decode_to` on the encoded bytes with an output buffer of
exactly the stream's length returns `Ok` and fills the buffer with
exactly the original stream.  (At `2^31` the encoder's `len as i32`
cast wraps and the round trip breaks.) -/
theorem rle_roundtrip (bytes buf : List Nat) (hb : bytes.length < 2 ^ 31)
    (hlen : buf.length = bytes.length) :
    decode_to (encodeStream bytes) buf = .ok bytes := by
  have hexp := expand_rleEncode bytes
  have hgood := rleEncode_good bytes
  have hbnd : ∀ s ∈ rleEncode bytes, (expandState s).length < 2 ^ 31 := by
    intro s hs
    have := length_le_flatten_length expandState (rleEncode bytes) s hs
    rw [hexp] at this
    omega
  have hfuel : (rleEncode bytes).length ≤
      (((rleEncode bytes).map serializeState).flatten).length := by
    refine count_le_flatten_length serializeState (rleEncode bytes) (fun s _ => ?_)
    have hne := serializeState_ne_nil s
    cases hsz : serializeState s with
    | nil => exact absurd hsz hne
    | cons a l => simp
  unfold decode_to
  rw [show encodeStream bytes = ((rleEncode bytes).map serializeState).flatten from rfl]
  rw [decode_serialized (rleEncode bytes)
    (((rleEncode bytes).map serializeState).flatten).length buf hgood hbnd
    (by rw [hexp]; exact hlen) hfuel]
  rw [hexp]

/-- C8 witness for `rle_roundtrip`: the stream `[7,7,7,4,5]` — one run
and one literal block — decodes back from its encoding. -/
theorem rle_roundtrip_witness :
    decode_to (encodeStream [7, 7, 7, 4, 5]) [0, 0, 0, 0, 0] = .ok [7, 7, 7, 4, 5] :=
  rle_roundtrip [7, 7, 7, 4, 5] [0, 0, 0, 0, 0] (by decide) (by decide)

theorem decodeToAux_neg_eof (fuel : Nat) (data buf : List Nat) (z : Int) (remain : List Nat)
    (hdata : data ≠ []) (htake : takeI32 data = some (z, remain)) (hz : z < 0)
    (hlenbuf : z.natAbs ≤ buf.length) (hrem : remain.length < z.natAbs) :
    decodeToAux (fuel + 1) data buf = .error .decodeOrEof := by
  obtain ⟨a, d, rfl⟩ : ∃ a d, data = a :: d := by
    cases data with
    | nil => exact absurd rfl hdata
    | cons a d => exact ⟨a, d, rfl⟩
  rw [decodeToAux, htake]
  dsimp only
  rw [if_neg (by omega), if_pos hz, if_pos (by omega)]

/-- C8 counterexample: the claim fails for the byte stream of `2^31`
zero bytes.  The encoder collapses it to one run of length `2^31`,
whose `len as i32` cast wraps to `-2^31`, so the wire form is the
postcard encoding of `-2^31` followed by the single byte 0; the decoder
reads a negative length — a literal block of `2^31` bytes — finds only
one byte of input left, and fails with `DecodeOrEof` instead of
returning `Ok`. -/
theorem rle_roundtrip_counterexample :
    decode_to (encodeStream (List.replicate (2 ^ 31) 0)) (List.replicate (2 ^ 31) 0) =
      .error .decodeOrEof ∧
    decode_to (encodeStream (List.replicate (2 ^ 31) 0)) (List.replicate (2 ^ 31) 0) ≠
      .ok (List.replicate (2 ^ 31) 0) := by
  have hfold : ∀ (m k : Nat),
      (List.replicate m (0 : Nat)).foldl rleStep [.run 0 k] = [.run 0 (k + m)] := by
    intro m
    induction m with
    | zero => intro k; simp
    | succ m ih =>
      intro k
      rw [List.replicate_succ, List.foldl_cons,
        show rleStep [.run 0 k] 0 = [.run 0 (k + 1)] from rfl, ih (k + 1),
        show k + 1 + m = k + (m + 1) from by omega]
  have hstates : rleEncode (List.replicate (2 ^ 31) 0) = [.run 0 (2 ^ 31)] := by
    unfold rleEncode
    rw [show (2 ^ 31 : Nat) = (2 ^ 31 - 2) + 1 + 1 from by omega]
    rw [List.replicate_succ, List.foldl_cons, List.replicate_succ, List.foldl_cons]
    rw [show rleStep [] 0 = [.raw [0]] from rfl]
    rw [show rleStep [.raw [0]] 0 = [.run 0 2] from rfl]
    rw [hfold (2 ^ 31 - 2) 2, show 2 + (2 ^ 31 - 2) = (2 ^ 31 - 2) + 1 + 1 from by omega]
    rfl
  have hdata : encodeStream (List.replicate (2 ^ 31) 0) = [255, 255, 255, 255, 15, 0] := by
    unfold encodeStream
    rw [hstates, List.map_cons, List.map_nil, List.flatten_cons, List.flatten_nil,
      List.append_nil]
    rw [show serializeState (.run 0 (2 ^ 31)) = encodeI32 (toI32 (2 ^ 31)) ++ [0] from rfl]
    rw [show toI32 (2 ^ 31) = -(2 ^ 31) from by decide]
    rw [show encodeI32 (-(2 ^ 31)) = [255, 255, 255, 255, 15] from by decide]
    rfl
  have h1 : decode_to (encodeStream (List.replicate (2 ^ 31) 0)) (List.replicate (2 ^ 31) 0) =
      .error .decodeOrEof := by
    rw [hdata]
    unfold decode_to
    refine decodeToAux_neg_eof 5 _ _ (-(2 ^ 31)) [0] (by simp) (by decide) (by decide)
      ?_ (by decide)
    rw [List.length_replicate]
    decide
  exact ⟨h1, fun hc => Except.noConfusion (h1.symm.trans hc)⟩
